import Mathlib

/-!
# Verification of the memnexus orchestration core

A shallow embedding of the orchestration engine, dependency scheduler,
intervention registry, ACP protocol adapter and session manager of the
memnexus repository, together with proofs and refutations of the spec's
claims about them.

Python `dict`s are modelled as insertion-ordered association lists,
Python `set`s as duplicate-free lists in insertion order (all claims
proved about them are order-insensitive set-level facts), and `async`
methods as pure state-transition functions.  Unbounded `while` loops are
modelled with an explicit fuel parameter; where a theorem depends on the
loop running to completion we prove that the supplied fuel is never
exhausted.
-/

set_option linter.unusedVariables false

namespace Memnexus

/-! ## Python container primitives -/

/-- Python `m.get(k)` on a dict modelled as an association list. -/
def dictGet {α : Type} (m : List (String × α)) (k : String) : Option α :=
  (m.find? (fun p => p.1 == k)).map Prod.snd

/-- Python `m[k] = v`: overwrite in place if the key exists, else append
(CPython dicts preserve the original position of an overwritten key). -/
def dictSet {α : Type} (m : List (String × α)) (k : String) (v : α) :
    List (String × α) :=
  if m.any (fun p => p.1 == k) then
    m.map (fun p => if p.1 == k then (k, v) else p)
  else m ++ [(k, v)]

/-- Python `del m[k]` (total: deleting an absent key is the identity here;
the embedded code only deletes behind an `in` check). -/
def dictDel {α : Type} (m : List (String × α)) (k : String) :
    List (String × α) :=
  m.filter (fun p => !(p.1 == k))

/-- Python `s.add(x)` on a set modelled as a duplicate-free list. -/
def setAdd (s : List String) (x : String) : List String :=
  if x ∈ s then s else s ++ [x]

/-- Python `set(l)`: deduplicate, keeping first occurrences. -/
def setOf (l : List String) : List String := l.foldl setAdd []

theorem mem_setAdd {s : List String} {x y : String} :
    y ∈ setAdd s x ↔ y ∈ s ∨ y = x := by
  unfold setAdd
  by_cases h : x ∈ s
  · simp only [h, if_true]
    constructor
    · exact Or.inl
    · rintro (hy | rfl) <;> assumption
  · simp [h]

theorem mem_setOf {l : List String} {x : String} :
    x ∈ setOf l ↔ x ∈ l := by
  unfold setOf
  suffices h : ∀ acc : List String, x ∈ l.foldl setAdd acc ↔ x ∈ acc ∨ x ∈ l by
    simpa using h []
  induction l with
  | nil => simp
  | cons a t ih =>
    intro acc
    simp only [List.foldl_cons, ih, mem_setAdd, List.mem_cons]
    tauto

theorem length_setOf_le (l : List String) : (setOf l).length ≤ l.length := by
  unfold setOf
  suffices h : ∀ acc : List String,
      (l.foldl setAdd acc).length ≤ acc.length + l.length by
    simpa using h []
  induction l with
  | nil => simp
  | cons a t ih =>
    intro acc
    simp only [List.foldl_cons]
    refine le_trans (ih (setAdd acc a)) ?_
    have : (setAdd acc a).length ≤ acc.length + 1 := by
      unfold setAdd; split <;> simp
    simp only [List.length_cons]
    omega

/-! ## Task data model (engine.py) -/

/-- `TaskState` (engine.py 16-28). -/
inductive TaskState where
  | pending
  | waitingForDependencies
  | ready
  | assigned
  | running
  | awaitingReview
  | awaitingHuman
  | completed
  | failed
  | cancelled
  | retrying
deriving Repr, DecidableEq

/-- `ExecutionStrategy` (core/session.py 108-113). -/
inductive ExecutionStrategy where
  | sequential
  | parallel
  | review
  | auto
deriving Repr, DecidableEq

/-- `OrchestrationTask` (engine.py 31-49), restricted to the fields the
verified operations read or write (`name`, `description`, `role`, `prompt`,
`result`, the timestamps and `metadata` are never examined by the claims
under proof; `role` is kept because agent selection matches on it). -/
structure OrchestrationTask where
  id : String
  dependencies : List String
  role : String := "backend"
  state : TaskState := .pending
  retryCount : Nat := 0
  maxRetries : Nat := 3
  error : Option String := none
deriving Repr, DecidableEq

/-! ## `OrchestratorEngine._calculate_phases` (engine.py 423-450) -/

/-- The `ready` list built by one pass of the `while remaining:` body:
`for task_id in remaining:` look the task up by id and keep it when all
its dependencies are in `completed`.  (Python iterates the set `remaining`
in unspecified order; we keep insertion order — the proved properties are
order-insensitive.) -/
def phaseReady (tasks : List OrchestrationTask)
    (completed remaining : List String) : List String :=
  remaining.filter (fun tid =>
    match tasks.find? (fun t => t.id == tid) with
    | some t => t.dependencies.all (fun d => decide (d ∈ completed))
    | none => false)

/-- The `while remaining:` loop of `_calculate_phases`, with fuel.  Each
productive iteration removes at least one element of `remaining`, so fuel
`tasks.length` can never be exhausted (proved below). -/
def calcPhasesAux (tasks : List OrchestrationTask) :
    Nat → List String → List String → List (List String)
  | 0, _, _ => []
  | Nat.succ fuel, completed, remaining =>
    if remaining.isEmpty then []
    else
      let ready := phaseReady tasks completed remaining
      if ready.isEmpty then []
      else
        ready :: calcPhasesAux tasks fuel (completed ++ ready)
          (remaining.filter (fun tid => decide (tid ∉ ready)))

/-- `OrchestratorEngine._calculate_phases(tasks)` (engine.py 423-450):
greedy layering starting from `remaining = set(t.id for t in tasks)` and
`completed = set()`. -/
def calculatePhases (tasks : List OrchestrationTask) : List (List String) :=
  if tasks.isEmpty then []
  else calcPhasesAux tasks tasks.length [] (setOf (tasks.map (·.id)))

/-- `ExecutionPlan` (engine.py 68-75), restricted to the fields the claims
examine. -/
structure ExecutionPlan where
  sessionId : String
  strategy : ExecutionStrategy
  tasks : List OrchestrationTask
  phases : List (List String)
deriving Repr, DecidableEq

/-- `OrchestratorEngine.create_plan` (engine.py 211-233): compute phases,
then set the initial state of every task (`ready` when it has no
dependencies, `waiting_deps` otherwise). -/
def createPlan (sessionId : String) (strategy : ExecutionStrategy)
    (tasks : List OrchestrationTask) : ExecutionPlan :=
  { sessionId := sessionId
    strategy := strategy
    tasks := tasks.map (fun t =>
      if t.dependencies.isEmpty then { t with state := .ready }
      else { t with state := .waitingForDependencies })
    phases := calculatePhases tasks }

/-! ## Generic cycle machinery -/

/-- One dependency edge of a task list as `create_plan` sees it: `a`'s
first occurrence in the list names `b` among its dependencies. -/
def DepStepT (tasks : List OrchestrationTask) (a b : String) : Prop :=
  ∃ t, tasks.find? (fun t' => t'.id == a) = some t ∧ b ∈ t.dependencies

/-- Every dependency named by a task is itself the id of some task. -/
def ClosedDeps (tasks : List OrchestrationTask) : Prop :=
  ∀ t ∈ tasks, ∀ d ∈ t.dependencies, d ∈ tasks.map (·.id)

/-- Acyclicity of the dependency relation. -/
def AcyclicT (tasks : List OrchestrationTask) : Prop :=
  ∀ a, ¬ Relation.TransGen (DepStepT tasks) a a

/-- In a finite set in which every element has an `R`-successor inside the
set, `R` has a cycle. -/
theorem exists_transGen_self_of_step {α : Type} [DecidableEq α]
    (R : α → α → Prop) (S : List α) (hne : S ≠ [])
    (hstep : ∀ a ∈ S, ∃ b ∈ S, R a b) :
    ∃ a, Relation.TransGen R a a := by
  classical
  obtain ⟨a₀, ha₀⟩ := List.exists_mem_of_ne_nil S hne
  let next : {x // x ∈ S} → {x // x ∈ S} := fun p =>
    ⟨Classical.choose (hstep p.1 p.2),
     (Classical.choose_spec (hstep p.1 p.2)).1⟩
  have hnext : ∀ p : {x // x ∈ S}, R p.1 (next p).1 := fun p =>
    (Classical.choose_spec (hstep p.1 p.2)).2
  let f : ℕ → {x // x ∈ S} := fun n => next^[n] ⟨a₀, ha₀⟩
  have hfstep : ∀ n, R (f n).1 (f (n + 1)).1 := by
    intro n
    have : f (n + 1) = next (f n) := Function.iterate_succ_apply' next n _
    rw [this]
    exact hnext (f n)
  have hchain : ∀ i j, i < j → Relation.TransGen R (f i).1 (f j).1 := by
    intro i j hij
    induction j with
    | zero => omega
    | succ k ih =>
      rcases Nat.lt_succ_iff_lt_or_eq.mp hij with h | h
      · exact Relation.TransGen.tail (ih h) (hfstep k)
      · subst h; exact Relation.TransGen.single (hfstep i)
  have hFin : Finite {x // x ∈ S} := S.finite_toSet.to_subtype
  obtain ⟨i, j, hne', heq⟩ := Finite.exists_ne_map_eq_of_infinite f
  rcases hne'.lt_or_lt with h | h
  · refine ⟨(f j).1, ?_⟩
    have := hchain i j h
    rwa [heq] at this
  · refine ⟨(f i).1, ?_⟩
    have := hchain j i h
    rwa [← heq] at this

/-- A list in which every `R`-edge from a member goes to an earlier member
witnesses that no member lies on an `R`-cycle. -/
theorem not_transGen_self_of_ordered {α : Type} [DecidableEq α]
    (R : α → α → Prop) (L : List α)
    (hstep : ∀ a b, R a b → a ∈ L → b ∈ L ∧ L.indexOf b < L.indexOf a) :
    ∀ a ∈ L, ¬ Relation.TransGen R a a := by
  have haux : ∀ a c, Relation.TransGen R a c → a ∈ L →
      c ∈ L ∧ L.indexOf c < L.indexOf a := by
    intro a c htg
    induction htg with
    | single h => exact fun ha => hstep _ _ h ha
    | tail htg h ih =>
      intro ha
      obtain ⟨hb, hlt⟩ := ih ha
      obtain ⟨hc, hlt2⟩ := hstep _ _ h hb
      exact ⟨hc, hlt2.trans hlt⟩
  intro a ha htg
  exact absurd (haux a a htg ha).2 (lt_irrefl _)

/-- A rank function that strictly decreases along every dependency edge
certifies acyclicity (used to discharge `AcyclicT` on concrete inputs). -/
theorem acyclicT_of_ranked (tasks : List OrchestrationTask)
    (rank : String → Nat)
    (h : ∀ t ∈ tasks, ∀ d ∈ t.dependencies, rank d < rank t.id) :
    AcyclicT tasks := by
  intro a htg
  have key : ∀ x y, Relation.TransGen (DepStepT tasks) x y → rank y < rank x := by
    intro x y htg
    induction htg with
    | single hr =>
      obtain ⟨t, hfind, hd⟩ := hr
      have hid : t.id = x := by simpa using List.find?_some hfind
      exact hid ▸ h t (List.mem_of_find?_eq_some hfind) _ hd
    | @tail b c htg hr ih =>
      obtain ⟨t, hfind, hd⟩ := hr
      have hid : t.id = b := by simpa using List.find?_some hfind
      exact lt_trans (hid ▸ h t (List.mem_of_find?_eq_some hfind) _ hd) ih
  exact lt_irrefl _ (key a a htg)

/-! ## Correctness of the engine's greedy layering -/

theorem find?_eq_some_of_mem_ids {tasks : List OrchestrationTask} {x : String}
    (hx : x ∈ tasks.map (·.id)) :
    ∃ t, tasks.find? (fun t' => t'.id == x) = some t ∧ t.id = x ∧ t ∈ tasks := by
  induction tasks with
  | nil => simp at hx
  | cons t ts ih =>
    by_cases h : t.id = x
    · exact ⟨t, by rw [List.find?_cons_of_pos _ (by simp [h])], h, by simp⟩
    · have hx' : x ∈ ts.map (·.id) := by
        simp only [List.map_cons, List.mem_cons] at hx
        exact hx.resolve_left (fun he => h he.symm)
      obtain ⟨u, hfind, hid, hmem⟩ := ih hx'
      exact ⟨u, by rw [List.find?_cons_of_neg _ (by simp [h])]; exact hfind,
        hid, by simp [hmem]⟩

theorem mem_phaseReady {tasks : List OrchestrationTask}
    {completed remaining : List String} {tid : String} :
    tid ∈ phaseReady tasks completed remaining ↔
      tid ∈ remaining ∧ ∃ t, tasks.find? (fun t' => t'.id == tid) = some t ∧
        ∀ d ∈ t.dependencies, d ∈ completed := by
  unfold phaseReady
  rw [List.mem_filter]
  constructor
  · rintro ⟨hmem, hpred⟩
    refine ⟨hmem, ?_⟩
    cases hfind : tasks.find? (fun t' => t'.id == tid) with
    | none => rw [hfind] at hpred; simp at hpred
    | some t =>
      rw [hfind] at hpred
      simp only [List.all_eq_true, decide_eq_true_eq] at hpred
      exact ⟨t, rfl, hpred⟩
  · rintro ⟨hmem, t, hfind, hall⟩
    refine ⟨hmem, ?_⟩
    rw [hfind]
    simp only [List.all_eq_true, decide_eq_true_eq]
    exact hall

/-- Progress: when every pending id is a task id, dependencies are closed
and the dependency relation is acyclic, a nonempty `remaining` set always
yields a nonempty `ready` layer. -/
theorem phaseReady_ne_nil {tasks : List OrchestrationTask}
    {completed remaining : List String}
    (hne : remaining ≠ [])
    (hsub : ∀ x ∈ remaining, x ∈ tasks.map (·.id))
    (hcov : ∀ x ∈ tasks.map (·.id), x ∈ completed ∨ x ∈ remaining)
    (hclosed : ClosedDeps tasks) (hacyc : AcyclicT tasks) :
    phaseReady tasks completed remaining ≠ [] := by
  intro hready
  have hstep : ∀ a ∈ remaining, ∃ b ∈ remaining, DepStepT tasks a b := by
    intro a ha
    obtain ⟨t, hfind, hid, hmem⟩ := find?_eq_some_of_mem_ids (hsub a ha)
    have hnall : ¬ (∀ d ∈ t.dependencies, d ∈ completed) := by
      intro hall
      have : a ∈ phaseReady tasks completed remaining :=
        mem_phaseReady.mpr ⟨ha, t, hfind, hall⟩
      rw [hready] at this
      simp at this
    push_neg at hnall
    obtain ⟨d, hd, hdnc⟩ := hnall
    have hdrem : d ∈ remaining :=
      (hcov d (hclosed t hmem d hd)).resolve_left hdnc
    exact ⟨d, hdrem, t, hfind, hd⟩
  obtain ⟨a, hcyc⟩ :=
    exists_transGen_self_of_step (DepStepT tasks) remaining hne hstep
  exact hacyc a hcyc

theorem calcPhasesAux_join {tasks : List OrchestrationTask}
    (hclosed : ClosedDeps tasks) (hacyc : AcyclicT tasks) :
    ∀ {fuel : Nat} {completed remaining : List String},
    remaining.length ≤ fuel →
    (∀ x ∈ remaining, x ∈ tasks.map (·.id)) →
    (∀ x ∈ tasks.map (·.id), x ∈ completed ∨ x ∈ remaining) →
    ∀ x, x ∈ (calcPhasesAux tasks fuel completed remaining).flatten ↔
      x ∈ remaining := by
  intro fuel
  induction fuel with
  | zero =>
    intro completed remaining hfuel _ _ x
    have hrem : remaining = [] := List.eq_nil_of_length_eq_zero
      (Nat.le_zero.mp hfuel)
    simp [calcPhasesAux, hrem]
  | succ fuel ih =>
    intro completed remaining hfuel hsub hcov x
    by_cases hemp : remaining.isEmpty
    · have hrem : remaining = [] := List.isEmpty_iff.mp hemp
      simp [calcPhasesAux, hrem]
    · have hne : remaining ≠ [] := fun h => hemp (by simp [h])
      have hrne := phaseReady_ne_nil hne hsub hcov hclosed hacyc
      have hunfold : calcPhasesAux tasks (fuel + 1) completed remaining =
          phaseReady tasks completed remaining ::
            calcPhasesAux tasks fuel
              (completed ++ phaseReady tasks completed remaining)
              (remaining.filter
                (fun tid => decide (tid ∉ phaseReady tasks completed remaining))) := by
        rw [calcPhasesAux]
        rw [if_neg hemp, if_neg (by simpa [List.isEmpty_iff] using hrne)]
      rw [hunfold]
      have hreadysub : ∀ y ∈ phaseReady tasks completed remaining,
          y ∈ remaining := fun y hy => (mem_phaseReady.mp hy).1
      have hlen : (remaining.filter
          (fun tid => decide (tid ∉ phaseReady tasks completed remaining))).length
          ≤ fuel := by
        have hlt : (remaining.filter
            (fun tid => decide (tid ∉ phaseReady tasks completed remaining))).length
            < remaining.length := by
          obtain ⟨y, hy⟩ := List.exists_mem_of_ne_nil _ hrne
          refine List.length_filter_lt_length_iff_exists.mpr ?_
          exact ⟨y, hreadysub y hy, by simpa using hy⟩
        omega
      have hsub' : ∀ y ∈ remaining.filter
          (fun tid => decide (tid ∉ phaseReady tasks completed remaining)),
          y ∈ tasks.map (·.id) := by
        intro y hy
        exact hsub y (List.mem_of_mem_filter hy)
      have hcov' : ∀ y ∈ tasks.map (·.id),
          y ∈ completed ++ phaseReady tasks completed remaining ∨
          y ∈ remaining.filter
            (fun tid => decide (tid ∉ phaseReady tasks completed remaining)) := by
        intro y hy
        rcases hcov y hy with h | h
        · exact Or.inl (List.mem_append_left _ h)
        · by_cases hr : y ∈ phaseReady tasks completed remaining
          · exact Or.inl (List.mem_append_right _ hr)
          · exact Or.inr (List.mem_filter.mpr ⟨h, by simpa using hr⟩)
      rw [List.flatten_cons, List.mem_append, ih hlen hsub' hcov' x]
      constructor
      · rintro (h | h)
        · exact hreadysub x h
        · exact List.mem_of_mem_filter h
      · intro h
        by_cases hr : x ∈ phaseReady tasks completed remaining
        · exact Or.inl hr
        · exact Or.inr (List.mem_filter.mpr ⟨h, by simpa using hr⟩)

theorem calcPhasesAux_deps {tasks : List OrchestrationTask} :
    ∀ {fuel : Nat} {completed remaining : List String} {k : Nat}
    {ph : List String},
    (calcPhasesAux tasks fuel completed remaining)[k]? = some ph →
    ∀ tid ∈ ph, ∀ t, tasks.find? (fun t' => t'.id == tid) = some t →
    ∀ d ∈ t.dependencies,
      d ∈ completed ∨ ∃ j, j < k ∧ ∃ ph2,
        (calcPhasesAux tasks fuel completed remaining)[j]? = some ph2 ∧
        d ∈ ph2 := by
  intro fuel
  induction fuel with
  | zero =>
    intro completed remaining k ph hk
    simp [calcPhasesAux] at hk
  | succ fuel ih =>
    intro completed remaining k ph hk tid htid t hfind d hd
    by_cases hemp : remaining.isEmpty
    · simp [calcPhasesAux, hemp] at hk
    · by_cases hrdy : (phaseReady tasks completed remaining).isEmpty
      · simp [calcPhasesAux, hemp, hrdy] at hk
      · have hunfold : calcPhasesAux tasks (fuel + 1) completed remaining =
            phaseReady tasks completed remaining ::
              calcPhasesAux tasks fuel
                (completed ++ phaseReady tasks completed remaining)
                (remaining.filter
                  (fun tid => decide (tid ∉ phaseReady tasks completed remaining))) := by
          rw [calcPhasesAux]
          rw [if_neg (by simp [hemp]), if_neg (by simp [hrdy])]
        rw [hunfold] at hk ⊢
        match k, hk with
        | 0, hk =>
          have hph : ph = phaseReady tasks completed remaining := by
            simpa using hk.symm
          subst hph
          obtain ⟨-, t₂, hfind₂, hall⟩ := mem_phaseReady.mp htid
          rw [hfind] at hfind₂
          cases hfind₂
          exact Or.inl (hall d hd)
        | (k + 1), hk =>
          have hk' : (calcPhasesAux tasks fuel
              (completed ++ phaseReady tasks completed remaining)
              (remaining.filter
                (fun tid => decide (tid ∉ phaseReady tasks completed remaining))))[k]?
              = some ph := by simpa using hk
          rcases ih hk' tid htid t hfind d hd with h | ⟨j, hj, ph2, hph2, hdph⟩
          · rcases List.mem_append.mp h with h | h
            · exact Or.inl h
            · exact Or.inr ⟨0, by omega, phaseReady tasks completed remaining,
                by simp, h⟩
          · exact Or.inr ⟨j + 1, by omega, ph2, by simpa using hph2, hdph⟩

/-! ## Claim C1 -/

/-- A task list on which the phase-partition invariant fails as stated:
one task whose single dependency id was never given as a task.  The greedy
layering finds no ready task in the first round and stops with empty
phases, so the union of phases misses `"a"`. -/
def c1CexTasks : List OrchestrationTask :=
  [{ id := "a", dependencies := ["b"] }]

/-- C1, counterexample: for the task list `[a depends on b]` (with no task
`b`), the union of the phases computed by `create_plan` does not contain
`"a"`, so it differs from the task-id set — the invariant does not hold for
every input task list. -/
theorem c1_create_plan_phases_cex :
    ¬ ("a" ∈ (createPlan "s" ExecutionStrategy.parallel c1CexTasks).phases.flatten ↔
        "a" ∈ c1CexTasks.map (·.id)) := by
  decide

/-- C1 (amended): for every task list whose dependencies all name tasks of
the list and whose dependency relation is acyclic, after `create_plan` the
union of the computed phases equals the set of task ids; and —
unconditionally, for every task list — every dependency of a task placed
in phase `k` appears in some phase `< k`. -/
theorem c1_create_plan_phases (sessionId : String)
    (strategy : ExecutionStrategy) (tasks : List OrchestrationTask) :
    (ClosedDeps tasks → AcyclicT tasks →
      ∀ x, x ∈ (createPlan sessionId strategy tasks).phases.flatten ↔
        x ∈ tasks.map (·.id)) ∧
    (∀ (k : Nat) (ph : List String),
      (createPlan sessionId strategy tasks).phases[k]? = some ph →
      ∀ tid ∈ ph, ∀ t, tasks.find? (fun t' => t'.id == tid) = some t →
        ∀ d ∈ t.dependencies, ∃ j : Nat, j < k ∧ ∃ ph2 : List String,
          (createPlan sessionId strategy tasks).phases[j]? = some ph2 ∧
          d ∈ ph2) := by
  have hphases : (createPlan sessionId strategy tasks).phases =
      calculatePhases tasks := rfl
  constructor
  · intro hclosed hacyc x
    rw [hphases]
    unfold calculatePhases
    by_cases hemp : tasks.isEmpty
    · have htasks : tasks = [] := List.isEmpty_iff.mp hemp
      simp [htasks]
    · rw [if_neg hemp]
      rw [calcPhasesAux_join hclosed hacyc
        (le_trans (length_setOf_le _) (by simp))
        (fun y hy => mem_setOf.mp hy)
        (fun y hy => Or.inr (mem_setOf.mpr hy)) x]
      exact mem_setOf
  · intro k ph hk tid htid t hfind d hd
    rw [hphases] at hk ⊢
    unfold calculatePhases at hk ⊢
    by_cases hemp : tasks.isEmpty
    · rw [if_pos hemp] at hk
      simp at hk
    · rw [if_neg hemp] at hk ⊢
      rcases calcPhasesAux_deps hk tid htid t hfind d hd with h | h
      · simp at h
      · exact h

/-- The two-task chain used as the C1 witness input. -/
def c1WitnessTasks : List OrchestrationTask :=
  [{ id := "a", dependencies := [] }, { id := "b", dependencies := ["a"] }]

/-- C1, witness: the amended theorem applied to the concrete chain
`a ← b`, with the closedness and acyclicity hypotheses of the union
conjunct discharged on that input. -/
theorem c1_create_plan_phases_witness :
    ("b" ∈ (createPlan "s" ExecutionStrategy.parallel c1WitnessTasks).phases.flatten ↔
        "b" ∈ c1WitnessTasks.map (·.id)) :=
  (c1_create_plan_phases "s" ExecutionStrategy.parallel c1WitnessTasks).1
    (by unfold ClosedDeps; decide)
    (acyclicT_of_ranked _ (fun s => if s = "a" then 0 else 1) (by decide)) "b"

/-! ## `DependencyGraph` (scheduler.py 11-195) -/

/-- The three dicts of `DependencyGraph.__init__` (scheduler.py 18-21):
task map, forward adjacency (`_dependencies`, values are sets) and reverse
adjacency (`_dependents`, values are sets). -/
structure DependencyGraph where
  tasks : List (String × OrchestrationTask)
  dependencies : List (String × List String)
  dependents : List (String × List String)
deriving Repr, DecidableEq

def DependencyGraph.empty : DependencyGraph := ⟨[], [], []⟩

/-- `DependencyGraph.add_task` (scheduler.py 23-32). -/
def addTask (g : DependencyGraph) (task : OrchestrationTask) :
    DependencyGraph :=
  { tasks := dictSet g.tasks task.id task
    dependencies := dictSet g.dependencies task.id (setOf task.dependencies)
    dependents := task.dependencies.foldl
      (fun m depId =>
        match dictGet m depId with
        | some s => dictSet m depId (setAdd s task.id)
        | none => dictSet m depId (setAdd [] task.id)) g.dependents }

/-- `DependencyGraph.remove_task` (scheduler.py 34-49): delete the key
from all three dicts, then discard the id from every remaining dependency
set.  Note it does not touch the values of `_dependents`. -/
def removeTask (g : DependencyGraph) (taskId : String) : DependencyGraph :=
  { tasks := dictDel g.tasks taskId
    dependencies := (dictDel g.dependencies taskId).map
      (fun p => (p.1, p.2.erase taskId))
    dependents := dictDel g.dependents taskId }

/-- `DependencyGraph.get_dependencies` (scheduler.py 51-53). -/
def getDependencies (g : DependencyGraph) (taskId : String) : List String :=
  (dictGet g.dependencies taskId).getD []

/-- `DependencyGraph.get_dependents` (scheduler.py 68-70). -/
def getDependents (g : DependencyGraph) (taskId : String) : List String :=
  (dictGet g.dependents taskId).getD []

theorem not_mem_keys_dictDel {α : Type} (m : List (String × α))
    (k : String) : k ∉ (dictDel m k).map Prod.fst := by
  unfold dictDel
  intro h
  simp only [List.mem_map, List.mem_filter, Bool.not_eq_eq_eq_not,
    Bool.not_true, beq_eq_false_iff_ne] at h
  obtain ⟨p, ⟨-, hne⟩, heq⟩ := h
  exact hne heq

theorem dictGet_map_value {α β : Type} (f : α → β)
    (m : List (String × α)) (k : String) :
    dictGet (m.map (fun p => (p.1, f p.2))) k = (dictGet m k).map f := by
  unfold dictGet
  induction m with
  | nil => simp
  | cons p m ih =>
    cases hpk : (p.1 == k) <;>
      simp [List.find?_cons, hpk] <;>
      simpa using ih

/-! ## Claim C10 -/

/-- The graph on which C10's "t no longer appears anywhere" fails: task
`t` depends on task `u`, so `_dependents["u"] = {"t"}`; `remove_task("t")`
deletes the key `"t"` but leaves `"t"` inside `_dependents["u"]`. -/
def c10CexGraph : DependencyGraph :=
  addTask (addTask DependencyGraph.empty { id := "u", dependencies := [] })
    { id := "t", dependencies := ["u"] }

/-- C10, counterexample: after `remove_task("t")` the id `"t"` still
appears in the graph — `get_dependents("u")` returns `{"t"}` — so the
removed id is not absent from the dependents map's values. -/
theorem c10_remove_task_cex :
    "t" ∈ getDependents (removeTask c10CexGraph "t") "u" := by
  decide

/-- C10 (amended): after `remove_task(t)` the id `t` is absent from the
task map, absent as a key of the dependencies and dependents maps, and
absent from every remaining task's dependency set (so `get_dependencies`
never returns it); it may however survive inside other tasks' dependent
sets.  The dependency-set clause assumes the stored dependency sets are
duplicate-free, which holds for every graph built by `add_task`. -/
theorem c10_remove_task (g : DependencyGraph) (t : String)
    (hnd : ∀ p ∈ g.dependencies, p.2.Nodup) :
    t ∉ (removeTask g t).tasks.map Prod.fst ∧
    t ∉ (removeTask g t).dependencies.map Prod.fst ∧
    t ∉ (removeTask g t).dependents.map Prod.fst ∧
    ∀ u, t ∉ getDependencies (removeTask g t) u := by
  refine ⟨not_mem_keys_dictDel _ _, ?_, not_mem_keys_dictDel _ _, ?_⟩
  · intro h
    have h2 : t ∈ (dictDel g.dependencies t).map Prod.fst := by
      simpa [removeTask, List.map_map, Function.comp] using h
    exact not_mem_keys_dictDel _ _ h2
  · intro u
    show t ∉ (dictGet ((dictDel g.dependencies t).map
      (fun p => (p.1, p.2.erase t))) u).getD []
    rw [dictGet_map_value (fun v : List String => v.erase t)]
    cases hget : dictGet (dictDel g.dependencies t) u with
    | none => intro hmem; simp at hmem
    | some v =>
      show t ∉ v.erase t
      have hv : v.Nodup := by
        unfold dictGet at hget
        cases hfind : (dictDel g.dependencies t).find?
            (fun p => p.1 == u) with
        | none => rw [hfind] at hget; simp at hget
        | some p =>
          rw [hfind] at hget
          simp at hget
          have hp : p ∈ dictDel g.dependencies t :=
            List.mem_of_find?_eq_some hfind
          have hp2 : p ∈ g.dependencies := by
            unfold dictDel at hp
            exact List.mem_of_mem_filter hp
          exact hget ▸ hnd p hp2
      intro hmem
      exact absurd ((List.Nodup.mem_erase_iff hv).mp hmem).1 (by simp)

/-- C10, witness: the amended theorem applied to the concrete two-task
graph, with the duplicate-freeness hypothesis discharged by computation. -/
theorem c10_remove_task_witness :
    "t" ∉ getDependencies (removeTask c10CexGraph "t") "u" :=
  (c10_remove_task c10CexGraph "t" (by decide)).2.2.2 "u"

/-! ## `DependencyGraph.topological_sort` (scheduler.py 124-150) -/

/-- `in_degree = {tid: 0 for tid in self._tasks}` followed by
`in_degree[task_id] = len(deps)` for every `_dependencies` item.  Python
ints are modelled as `Int` so that decrementing 0 gives -1, not 0. -/
def kahnInitDeg (g : DependencyGraph) : List (String × Int) :=
  g.dependencies.foldl (fun m p => dictSet m p.1 (p.2.length : Int))
    (g.tasks.map (fun p => (p.1, (0 : Int))))

/-- The `for dependent in self._dependents.get(task_id, set()):` body:
`in_degree[dependent] -= 1` (a `KeyError`, modelled as `none`, when the
dependent is not an `in_degree` key) and `queue.append(dependent)` when
the decremented degree is exactly zero. -/
def kahnProcessDependents :
    List String → List (String × Int) → List String →
    Option (List (String × Int) × List String)
  | [], m, pushes => some (m, pushes)
  | d :: rest, m, pushes =>
    match dictGet m d with
    | none => none
    | some n =>
      if n - 1 = 0 then
        kahnProcessDependents rest (dictSet m d (n - 1)) (pushes ++ [d])
      else
        kahnProcessDependents rest (dictSet m d (n - 1)) pushes

/-- Result of running Kahn's algorithm.  `fuelOut` is an artefact of the
fuel-based embedding of the `while queue:` loop and is proved unreachable
for the graphs the theorems quantify over. -/
inductive KahnRun where
  | ok (result : List String)
  | keyError
  | fuelOut
deriving Repr, DecidableEq

/-- The `while queue:` loop: pop the queue head, append it to the result,
decrement its dependents. -/
def kahnAux (g : DependencyGraph) :
    Nat → List String → List (String × Int) → List String → KahnRun
  | _, [], _, result => .ok result
  | 0, _ :: _, _, _ => .fuelOut
  | Nat.succ fuel, q :: queue, inDeg, result =>
    match kahnProcessDependents (getDependents g q) inDeg [] with
    | none => .keyError
    | some (inDeg2, pushes) =>
      kahnAux g fuel (queue ++ pushes) inDeg2 (result ++ [q])

/-- Outcome of `DependencyGraph.topological_sort`.  `cycleError` is the
`ValueError("Cycle detected in dependency graph")` raise; `keyError` is
the `KeyError` that `in_degree[dependent] -= 1` raises when a dependent id
is not an `in_degree` key. -/
inductive TopoResult where
  | ok (result : List String)
  | cycleError
  | keyError
  | fuelOut
deriving Repr, DecidableEq

/-- `DependencyGraph.topological_sort` (scheduler.py 124-150): Kahn's
algorithm; raise iff some task was never processed.  (Python iterates the
`_dependents` sets in unspecified order; the stored order is used here —
every property proved is insensitive to intra-round order.) -/
def topologicalSort (g : DependencyGraph) : TopoResult :=
  let inDeg := kahnInitDeg g
  let queue := (inDeg.filter (fun p => p.2 == 0)).map Prod.fst
  match kahnAux g (g.tasks.length + 1) queue inDeg [] with
  | .ok result =>
    if result.length ≠ g.tasks.length then .cycleError else .ok result
  | .keyError => .keyError
  | .fuelOut => .fuelOut

/-! ## `DependencyGraph.detect_cycles` (scheduler.py 86-122) -/

/-- The three colours of the DFS (`WHITE, GRAY, BLACK = 0, 1, 2`). -/
inductive Color where
  | white
  | gray
  | black
deriving Repr, DecidableEq

/-- The mutable state of `detect_cycles`: the `color` dict and the `path`
list. -/
structure DfsState where
  color : List (String × Color)
  path : List String
deriving Repr, DecidableEq

/-- Result of one `dfs` call. -/
inductive DfsRes where
  | found (cycle : List String)
  | clean
  | fuelOut
deriving Repr, DecidableEq

/-- A pending activity of the recursive `dfs`: either a `dfs(task_id)`
call, or the `for dep_id in ...:` loop of an enclosing call with the
still-unscanned dependency ids. -/
inductive DfsCall where
  | visit (taskId : String)
  | scan (deps : List String)
deriving Repr, DecidableEq

/-- The recursive `dfs` of `detect_cycles` (scheduler.py 96-114), as one
fuel-structural function over `DfsCall`.  A `visit taskId` colours the
node gray, pushes it on the path, scans its dependencies, then pops and
blackens it; a `scan` walks the dependency ids, skipping ids outside
`color`, reporting `path[path.index(dep):] + [dep]` on a gray dependency
and recursing on a white one.  Every call consumes one unit of fuel;
`fuelOut` is proved unreachable for the fuel the callers supply. -/
def dfsRun (g : DependencyGraph) :
    Nat → DfsCall → DfsState → DfsRes × DfsState
  | 0, _, st => (.fuelOut, st)
  | Nat.succ fuel, .visit taskId, st =>
    let st1 : DfsState :=
      ⟨dictSet st.color taskId Color.gray, st.path ++ [taskId]⟩
    match dfsRun g fuel (.scan (getDependencies g taskId)) st1 with
    | (DfsRes.clean, st2) =>
      (.clean, ⟨dictSet st2.color taskId Color.black, st2.path.dropLast⟩)
    | other => other
  | Nat.succ _, .scan [], st => (.clean, st)
  | Nat.succ fuel, .scan (depId :: rest), st =>
    match dictGet st.color depId with
    | none => dfsRun g fuel (.scan rest) st
    | some Color.gray =>
      (.found (st.path.drop (st.path.indexOf depId) ++ [depId]), st)
    | some Color.black => dfsRun g fuel (.scan rest) st
    | some Color.white =>
      match dfsRun g fuel (.visit depId) st with
      | (DfsRes.clean, st2) => dfsRun g fuel (.scan rest) st2
      | other => other

/-- Fuel that always suffices for a `dfs` call tree (proved below): every
task contributes its visit, its blackening and the scan of its
dependencies. -/
def dfsFuel (g : DependencyGraph) : Nat :=
  (g.tasks.map (fun p => 2 + (getDependencies g p.1).length)).sum + 1

/-- Outcome of `detect_cycles`. -/
inductive DetectResult where
  | cycle (path : List String)
  | noCycle
  | fuelOut
deriving Repr, DecidableEq

/-- The `for task_id in self._tasks:` loop of `detect_cycles`. -/
def detectLoop (g : DependencyGraph) :
    List String → DfsState → DetectResult
  | [], _ => .noCycle
  | k :: rest, st =>
    match dictGet st.color k with
    | some Color.white =>
      match dfsRun g (dfsFuel g) (.visit k) st with
      | (DfsRes.found cyc, _) => .cycle cyc
      | (DfsRes.clean, st2) => detectLoop g rest st2
      | (DfsRes.fuelOut, _) => .fuelOut
    | _ => detectLoop g rest st

/-- `DependencyGraph.detect_cycles` (scheduler.py 86-122): three-coloured
DFS over the task keys, `color` initialised to all-white. -/
def detectCycles (g : DependencyGraph) : DetectResult :=
  detectLoop g (g.tasks.map Prod.fst)
    ⟨g.tasks.map (fun p => (p.1, Color.white)), []⟩

/-! ## `TaskScheduler.create_schedule` (scheduler.py 272-332) -/

/-- Outcome of `create_schedule`. -/
inductive ScheduleResult where
  | ok (phases : List (List String))
  | cycleError (cycle : List String)
  | attributeError
  | fuelOut
deriving Repr, DecidableEq

/-- Python attribute lookup of `_calculate_phases` on a `DependencyGraph`
instance: scheduler.py line 318 calls `self.graph._calculate_phases(...)`,
but the `DependencyGraph` class (scheduler.py 11-195) defines only
`add_task`, `remove_task`, `get_dependencies`, `get_all_dependencies`,
`get_dependents`, `get_ready_tasks`, `detect_cycles`, `topological_sort`,
`get_critical_path` and `to_dict` — no `_calculate_phases` — so the lookup
raises `AttributeError`.  The method-table entry is modelled as the
`Option` of an implementation, which is `none`. -/
def graphCalculatePhasesMethod :
    Option (DependencyGraph → List OrchestrationTask → List (List String)) :=
  none

/-- `TaskScheduler.create_schedule` for `ExecutionStrategy.PARALLEL`
(scheduler.py 272-332): check for cycles, then call
`self.graph._calculate_phases(list(self._tasks.values()))`. -/
def createScheduleParallel (g : DependencyGraph)
    (tasks : List OrchestrationTask) : ScheduleResult :=
  match detectCycles g with
  | .cycle c => .cycleError c
  | .fuelOut => .fuelOut
  | .noCycle =>
    match graphCalculatePhasesMethod with
    | some f => .ok (f g tasks)
    | none => .attributeError

/-! ## Claim C4 -/

/-- C4: on every acyclic graph, `create_schedule` with the parallel
strategy raises `AttributeError` instead of returning layered phases,
because `DependencyGraph` defines no `_calculate_phases` method. -/
theorem c4_create_schedule_parallel_attribute_error
    (g : DependencyGraph) (tasks : List OrchestrationTask)
    (hnc : detectCycles g = DetectResult.noCycle) :
    createScheduleParallel g tasks = ScheduleResult.attributeError := by
  unfold createScheduleParallel
  rw [hnc]
  rfl

/-- The acyclic one-task graph used as the C4 failing input. -/
def c4FailingGraph : DependencyGraph :=
  addTask DependencyGraph.empty { id := "a", dependencies := [] }

/-- C4, witness: the failing input evaluated — a single dependency-free
task yields `AttributeError`, not the phases `[["a"]]` the spec promises. -/
theorem c4_create_schedule_parallel_attribute_error_witness :
    createScheduleParallel c4FailingGraph
      [{ id := "a", dependencies := [] }] = ScheduleResult.attributeError :=
  c4_create_schedule_parallel_attribute_error c4FailingGraph
    [{ id := "a", dependencies := [] }] (by decide)

/-! ## Claim C5, counterexample -/

/-- A task listing a dependency id that was never added as a task. -/
def c5CexGraph : DependencyGraph :=
  addTask DependencyGraph.empty { id := "a", dependencies := ["b"] }

/-- C5, counterexample: on the graph with the single task `a` depending on
the never-added id `b`, `topological_sort` raises the cycle-detected
`ValueError` while `detect_cycles` returns no cycle, so the claimed
equivalence fails for graphs with dangling dependency ids. -/
theorem c5_topo_iff_detect_cex :
    topologicalSort c5CexGraph = TopoResult.cycleError ∧
    detectCycles c5CexGraph = DetectResult.noCycle := by
  decide

/-! ## Association-list lemmas -/

theorem find?_cons_pos {α : Type} (p : α → Bool) (a : α) (l : List α)
    (h : p a = true) : (a :: l).find? p = some a := by
  simp [List.find?_cons, h]

theorem find?_cons_neg {α : Type} (p : α → Bool) (a : α) (l : List α)
    (h : p a = false) : (a :: l).find? p = l.find? p := by
  simp [List.find?_cons, h]

theorem filter_cons_pos {α : Type} (p : α → Bool) (a : α) (l : List α)
    (h : p a = true) : (a :: l).filter p = a :: l.filter p := by
  simp [List.filter_cons, h]

theorem filter_cons_neg {α : Type} (p : α → Bool) (a : α) (l : List α)
    (h : p a = false) : (a :: l).filter p = l.filter p := by
  simp [List.filter_cons, h]

theorem dictGet_isSome {α : Type} {m : List (String × α)} {k : String} :
    (dictGet m k).isSome ↔ k ∈ m.map Prod.fst := by
  unfold dictGet
  induction m with
  | nil => simp
  | cons p m ih =>
    cases hpk : (p.1 == k) with
    | true =>
      rw [find?_cons_pos (fun q => q.1 == k) p m hpk]
      have hp : p.1 = k := by simpa using hpk
      simp [hp]
    | false =>
      rw [find?_cons_neg (fun q => q.1 == k) p m hpk]
      simp only [List.map_cons, List.mem_cons]
      rw [ih]
      constructor
      · exact Or.inr
      · rintro (h | h)
        · exact absurd h.symm (by simpa using hpk)
        · exact h

theorem dictGet_eq_none {α : Type} {m : List (String × α)} {k : String}
    (h : k ∉ m.map Prod.fst) : dictGet m k = none := by
  cases hg : dictGet m k with
  | none => rfl
  | some v => exact absurd (dictGet_isSome.mp (by rw [hg]; rfl)) h

theorem dictGet_mem_of_eq_some {α : Type} {m : List (String × α)}
    {k : String} {v : α} (h : dictGet m k = some v) : (k, v) ∈ m := by
  unfold dictGet at h
  cases hfind : m.find? (fun p => p.1 == k) with
  | none => rw [hfind] at h; simp at h
  | some p =>
    rw [hfind] at h
    simp at h
    have hk : p.1 = k := by simpa using List.find?_some hfind
    have := List.mem_of_find?_eq_some hfind
    have hp : p = (k, v) := by
      cases p; simp_all
    rwa [hp] at this

theorem dictGet_of_mem_nodupKeys {α : Type} :
    ∀ (m : List (String × α)), (m.map Prod.fst).Nodup →
    ∀ (k : String) (v : α), (k, v) ∈ m → dictGet m k = some v := by
  intro m
  induction m with
  | nil => intro _ k v h; simp at h
  | cons p m ih =>
    intro hnd k v hmem
    simp only [List.map_cons, List.nodup_cons] at hnd
    rcases List.mem_cons.mp hmem with h | h
    · unfold dictGet
      rw [find?_cons_pos (fun q => q.1 == k) p m (by simp [← h])]
      simp [← h]
    · have hpk : (p.1 == k) = false := by
        simp only [beq_eq_false_iff_ne, ne_eq]
        intro he
        exact hnd.1 (he ▸ List.mem_map.mpr ⟨(k, v), h, rfl⟩)
      unfold dictGet
      rw [find?_cons_neg (fun q => q.1 == k) p m hpk]
      exact ih hnd.2 k v h

theorem mem_iff_dictGet_of_nodupKeys {α : Type} {m : List (String × α)}
    (hnd : (m.map Prod.fst).Nodup) {k : String} {v : α} :
    (k, v) ∈ m ↔ dictGet m k = some v :=
  ⟨dictGet_of_mem_nodupKeys m hnd k v, dictGet_mem_of_eq_some⟩

theorem any_key_iff {α : Type} {m : List (String × α)} {k : String} :
    m.any (fun p => p.1 == k) = true ↔ k ∈ m.map Prod.fst := by
  rw [List.any_eq_true]
  constructor
  · rintro ⟨p, hp, he⟩
    exact List.mem_map.mpr ⟨p, hp, by simpa using he⟩
  · intro h
    obtain ⟨p, hp, he⟩ := List.mem_map.mp h
    exact ⟨p, hp, by simp [he]⟩

theorem dictGet_mapOverwrite_self {α : Type} :
    ∀ (m : List (String × α)) (k : String) (v : α),
    k ∈ m.map Prod.fst →
    dictGet (m.map (fun p => if p.1 == k then (k, v) else p)) k = some v := by
  intro m
  induction m with
  | nil => intro k v h; simp at h
  | cons p m ih =>
    intro k v h
    cases hpk : (p.1 == k) with
    | true =>
      unfold dictGet
      simp only [List.map_cons, hpk, if_true]
      rw [find?_cons_pos (fun q => q.1 == k) (k, v) _ (by simp)]
      rfl
    | false =>
      unfold dictGet
      simp only [List.map_cons, hpk, Bool.false_eq_true, if_false]
      rw [find?_cons_neg (fun q => q.1 == k) p _ hpk]
      have hk : k ∈ m.map Prod.fst := by
        rcases List.mem_map.mp h with ⟨q, hq, he⟩
        rcases List.mem_cons.mp hq with h' | h'
        · exfalso
          rw [h'] at he
          simp [he] at hpk
        · exact List.mem_map.mpr ⟨q, h', he⟩
      exact ih k v hk

theorem dictGet_append_single_self {α : Type}
    (m : List (String × α)) (k : String) (v : α)
    (h : ∀ p ∈ m, (p.1 == k) = false) :
    dictGet (m ++ [(k, v)]) k = some v := by
  unfold dictGet
  induction m with
  | nil =>
    simp only [List.nil_append]
    rw [find?_cons_pos (fun q => q.1 == k) (k, v) [] (by simp)]
    rfl
  | cons p m ih =>
    rw [List.cons_append,
      find?_cons_neg (fun q => q.1 == k) p _ (h p (by simp))]
    exact ih (fun q hq => h q (by simp [hq]))

theorem dictGet_dictSet_self {α : Type} (m : List (String × α))
    (k : String) (v : α) : dictGet (dictSet m k v) k = some v := by
  unfold dictSet
  by_cases hany : m.any (fun p => p.1 == k) = true
  · rw [if_pos hany]
    exact dictGet_mapOverwrite_self m k v (any_key_iff.mp hany)
  · rw [if_neg hany]
    refine dictGet_append_single_self m k v ?_
    intro p hp
    by_contra hc
    exact hany (List.any_eq_true.mpr ⟨p, hp, by simpa using hc⟩)

theorem dictGet_mapOverwrite_ne {α : Type} :
    ∀ (m : List (String × α)) (k : String) (v : α) {k' : String},
    k' ≠ k →
    dictGet (m.map (fun p => if p.1 == k then (k, v) else p)) k' =
      dictGet m k' := by
  intro m
  induction m with
  | nil => intro k v k' h; rfl
  | cons p m ih =>
    intro k v k' h
    unfold dictGet
    cases hpk : (p.1 == k) with
    | true =>
      simp only [List.map_cons, hpk, if_true]
      have h1 : ((k, v).1 == k') = false := by
        simpa using fun he => h he.symm
      have h2 : (p.1 == k') = false := by
        have hp : p.1 = k := by simpa using hpk
        simpa [hp] using fun he => h he.symm
      rw [find?_cons_neg (fun q => q.1 == k') (k, v) _ h1,
        find?_cons_neg (fun q => q.1 == k') p _ h2]
      exact ih k v h
    | false =>
      simp only [List.map_cons, hpk, Bool.false_eq_true, if_false]
      cases hpk' : (p.1 == k') with
      | true =>
        rw [find?_cons_pos (fun q => q.1 == k') p _ hpk',
          find?_cons_pos (fun q => q.1 == k') p _ hpk']
      | false =>
        rw [find?_cons_neg (fun q => q.1 == k') p _ hpk',
          find?_cons_neg (fun q => q.1 == k') p _ hpk']
        exact ih k v h

theorem dictGet_append_single_ne {α : Type} :
    ∀ (m : List (String × α)) (k : String) (v : α) {k' : String},
    k' ≠ k → dictGet (m ++ [(k, v)]) k' = dictGet m k' := by
  intro m
  induction m with
  | nil =>
    intro k v k' h
    unfold dictGet
    simp only [List.nil_append]
    rw [find?_cons_neg (fun q => q.1 == k') (k, v) []
      (by simpa using fun he => h he.symm)]
  | cons p m ih =>
    intro k v k' h
    unfold dictGet
    rw [List.cons_append]
    cases hpk' : (p.1 == k') with
    | true =>
      rw [find?_cons_pos (fun q => q.1 == k') p _ hpk',
        find?_cons_pos (fun q => q.1 == k') p _ hpk']
    | false =>
      rw [find?_cons_neg (fun q => q.1 == k') p _ hpk',
        find?_cons_neg (fun q => q.1 == k') p _ hpk']
      exact ih k v h

theorem dictGet_dictSet_ne {α : Type} (m : List (String × α))
    (k : String) (v : α) {k' : String} (h : k' ≠ k) :
    dictGet (dictSet m k v) k' = dictGet m k' := by
  unfold dictSet
  split
  · exact dictGet_mapOverwrite_ne m k v h
  · exact dictGet_append_single_ne m k v h

theorem keys_dictSet_of_mem {α : Type} (m : List (String × α))
    (k : String) (v : α) (h : k ∈ m.map Prod.fst) :
    (dictSet m k v).map Prod.fst = m.map Prod.fst := by
  unfold dictSet
  rw [if_pos (any_key_iff.mpr h), List.map_map]
  refine List.map_congr_left ?_
  intro p hp
  simp only [Function.comp_apply]
  split
  · next he =>
    have hp1 : p.1 = k := by simpa using he
    simp [hp1]
  · rfl

theorem mem_keys_dictSet {α : Type} (m : List (String × α))
    (k : String) (v : α) {k' : String} :
    k' ∈ (dictSet m k v).map Prod.fst ↔ k' ∈ m.map Prod.fst ∨ k' = k := by
  by_cases h : k ∈ m.map Prod.fst
  · rw [keys_dictSet_of_mem m k v h]
    constructor
    · exact Or.inl
    · rintro (hy | rfl) <;> assumption
  · unfold dictSet
    rw [if_neg (fun hc => h (any_key_iff.mp hc))]
    simp

theorem dictGet_foldl_dictSet_not_mem {α β : Type} (f : String × α → β)
    (es : List (String × α)) {k : String} (hk : k ∉ es.map Prod.fst) :
    ∀ (m : List (String × β)),
    dictGet (es.foldl (fun acc p => dictSet acc p.1 (f p)) m) k =
      dictGet m k := by
  induction es with
  | nil => intro m; rfl
  | cons e es ih =>
    intro m
    simp only [List.map_cons, List.mem_cons, not_or] at hk
    rw [List.foldl_cons, ih hk.2, dictGet_dictSet_ne _ _ _ hk.1]

theorem dictGet_foldl_dictSet_mem {α β : Type} (f : String × α → β)
    (es : List (String × α)) (hnd : (es.map Prod.fst).Nodup) {k : String}
    {p₀ : String × α} (hfind : es.find? (fun p => p.1 == k) = some p₀) :
    ∀ (m : List (String × β)),
    dictGet (es.foldl (fun acc p => dictSet acc p.1 (f p)) m) k =
      some (f p₀) := by
  induction es with
  | nil => intro m; simp [List.find?] at hfind
  | cons e es ih =>
    intro m
    simp only [List.map_cons, List.nodup_cons] at hnd
    cases hek : (e.1 == k) with
    | true =>
      rw [find?_cons_pos (fun q => q.1 == k) e _ hek] at hfind
      have he : e = p₀ := by simpa using hfind
      have hkeq : e.1 = k := by simpa using hek
      have hknot : k ∉ es.map Prod.fst := hkeq ▸ hnd.1
      rw [List.foldl_cons, dictGet_foldl_dictSet_not_mem f es hknot, hkeq,
        dictGet_dictSet_self]
      have hep : e = p₀ := by simpa using hfind
      rw [hep]
    | false =>
      rw [find?_cons_neg (fun q => q.1 == k) e _ hek] at hfind
      rw [List.foldl_cons]
      exact ih hnd.2 hfind _

theorem keys_foldl_dictSet_of_sub {α β : Type} (f : String × α → β)
    (es : List (String × α)) :
    ∀ (m : List (String × β)), (∀ p ∈ es, p.1 ∈ m.map Prod.fst) →
    (es.foldl (fun acc p => dictSet acc p.1 (f p)) m).map Prod.fst =
      m.map Prod.fst := by
  induction es with
  | nil => intro m _; rfl
  | cons e es ih =>
    intro m hsub
    rw [List.foldl_cons]
    have hkeys := keys_dictSet_of_mem m e.1 (f e) (hsub e (by simp))
    rw [ih _ (fun p hp => hkeys ▸ hsub p (by simp [hp])), hkeys]

/-! ## Well-formed graphs and the stored dependency relation -/

/-- One edge of the stored dependency relation of a `DependencyGraph`. -/
def DepStepG (g : DependencyGraph) (a b : String) : Prop :=
  b ∈ getDependencies g a

/-- The graph has a dependency cycle. -/
def HasCycleG (g : DependencyGraph) : Prop :=
  ∃ a, Relation.TransGen (DepStepG g) a a

/-- Well-formedness of a `DependencyGraph` state: the state maintained by
`add_task` over distinct task ids (key sets agree, stored sets are
duplicate-free, `_dependents` is the exact reverse adjacency), plus the
amended claim's restriction that every stored dependency id is a task. -/
def WFGraph (g : DependencyGraph) : Prop :=
  (g.tasks.map Prod.fst).Nodup ∧
  g.dependencies.map Prod.fst = g.tasks.map Prod.fst ∧
  (∀ p ∈ g.dependencies, p.2.Nodup) ∧
  (∀ p ∈ g.dependencies, ∀ d ∈ p.2, d ∈ g.tasks.map Prod.fst) ∧
  (g.dependents.map Prod.fst).Nodup ∧
  (∀ p ∈ g.dependents, p.2.Nodup) ∧
  (∀ p ∈ g.dependents, ∀ t ∈ p.2, p.1 ∈ getDependencies g t) ∧
  (∀ p ∈ g.dependencies, ∀ d ∈ p.2, p.1 ∈ getDependents g d)

theorem getDependencies_entry {g : DependencyGraph} {k : String}
    (h : getDependencies g k ≠ []) :
    (k, getDependencies g k) ∈ g.dependencies := by
  unfold getDependencies at *
  cases hget : dictGet g.dependencies k with
  | none => rw [hget] at h; simp at h
  | some v => exact dictGet_mem_of_eq_some hget

theorem getDependents_entry {g : DependencyGraph} {k : String}
    (h : getDependents g k ≠ []) :
    (k, getDependents g k) ∈ g.dependents := by
  unfold getDependents at *
  cases hget : dictGet g.dependents k with
  | none => rw [hget] at h; simp at h
  | some v => exact dictGet_mem_of_eq_some hget

theorem wf_deps_nodup {g : DependencyGraph} (hwf : WFGraph g)
    (k : String) : (getDependencies g k).Nodup := by
  by_cases h : getDependencies g k = []
  · rw [h]; exact List.nodup_nil
  · exact hwf.2.2.1 _ (getDependencies_entry h)

theorem wf_depts_nodup {g : DependencyGraph} (hwf : WFGraph g)
    (k : String) : (getDependents g k).Nodup := by
  by_cases h : getDependents g k = []
  · rw [h]; exact List.nodup_nil
  · exact hwf.2.2.2.2.2.1 _ (getDependents_entry h)

theorem wf_deps_key {g : DependencyGraph} (hwf : WFGraph g)
    {k d : String} (h : d ∈ getDependencies g k) :
    k ∈ g.tasks.map Prod.fst := by
  have hne : getDependencies g k ≠ [] := by
    intro he; rw [he] at h; simp at h
  have hmem := getDependencies_entry hne
  rw [← hwf.2.1]
  exact List.mem_map.mpr ⟨_, hmem, rfl⟩

theorem wf_deps_closed {g : DependencyGraph} (hwf : WFGraph g)
    {k d : String} (h : d ∈ getDependencies g k) :
    d ∈ g.tasks.map Prod.fst := by
  have hne : getDependencies g k ≠ [] := by
    intro he; rw [he] at h; simp at h
  exact hwf.2.2.2.1 _ (getDependencies_entry hne) d h

theorem wf_depts_iff {g : DependencyGraph} (hwf : WFGraph g)
    (k t : String) :
    t ∈ getDependents g k ↔ k ∈ getDependencies g t := by
  constructor
  · intro h
    have hne : getDependents g k ≠ [] := by
      intro he; rw [he] at h; simp at h
    exact hwf.2.2.2.2.2.2.1 _ (getDependents_entry hne) t h
  · intro h
    have hne : getDependencies g t ≠ [] := by
      intro he; rw [he] at h; simp at h
    exact hwf.2.2.2.2.2.2.2 _ (getDependencies_entry hne) k h

theorem wf_depts_key {g : DependencyGraph} (hwf : WFGraph g)
    {k t : String} (h : t ∈ getDependents g k) :
    t ∈ g.tasks.map Prod.fst :=
  wf_deps_key hwf ((wf_depts_iff hwf k t).mp h)

theorem wf_depKeys_nodup {g : DependencyGraph} (hwf : WFGraph g) :
    (g.dependencies.map Prod.fst).Nodup := hwf.2.1 ▸ hwf.1

theorem kahnInitDeg_keys {g : DependencyGraph} (hwf : WFGraph g) :
    (kahnInitDeg g).map Prod.fst = g.tasks.map Prod.fst := by
  unfold kahnInitDeg
  have hbase : (g.tasks.map (fun p => (p.1, (0 : Int)))).map Prod.fst =
      g.tasks.map Prod.fst := by
    rw [List.map_map]; rfl
  rw [keys_foldl_dictSet_of_sub (fun p => ((p.2.length : Int)))
    g.dependencies _ ?_, hbase]
  intro p hp
  rw [hbase, ← hwf.2.1]
  exact List.mem_map.mpr ⟨p, hp, rfl⟩

theorem kahnInitDeg_get {g : DependencyGraph} (hwf : WFGraph g)
    {k : String} (hk : k ∈ g.tasks.map Prod.fst) :
    dictGet (kahnInitDeg g) k =
      some (((getDependencies g k).length : Int)) := by
  unfold kahnInitDeg
  have hkd : k ∈ g.dependencies.map Prod.fst := hwf.2.1 ▸ hk
  have hsome : (dictGet g.dependencies k).isSome := dictGet_isSome.mpr hkd
  cases hfind : g.dependencies.find? (fun p => p.1 == k) with
  | none =>
    exfalso
    unfold dictGet at hsome
    rw [hfind] at hsome
    simp at hsome
  | some p₀ =>
    rw [dictGet_foldl_dictSet_mem (fun p => ((p.2.length : Int)))
      g.dependencies (wf_depKeys_nodup hwf) hfind]
    have hdeps : getDependencies g k = p₀.2 := by
      unfold getDependencies dictGet
      rw [hfind]
      rfl
    rw [hdeps]

/-! ## List counting and index lemmas -/

theorem length_le_of_nodup_subset {l L : List String} (hnd : l.Nodup)
    (hsub : ∀ x ∈ l, x ∈ L) : l.length ≤ L.length := by
  calc l.length = l.toFinset.card := (List.toFinset_card_of_nodup hnd).symm
    _ ≤ L.toFinset.card := Finset.card_le_card (fun x hx => by
        simp only [List.mem_toFinset] at hx ⊢
        exact hsub x hx)
    _ ≤ L.length := L.toFinset_card_le

theorem filter_notMem_append_single {l res : List String} {q : String}
    (hq : q ∉ l) :
    l.filter (fun d => decide (d ∉ res ++ [q])) =
      l.filter (fun d => decide (d ∉ res)) := by
  refine List.filter_congr ?_
  intro d hd
  have hdq : d ≠ q := fun he => hq (he ▸ hd)
  simp [List.mem_append, hdq]

theorem length_filter_notMem_append_single {l res : List String}
    {q : String} (hnd : l.Nodup) (hq : q ∈ l) (hqr : q ∉ res) :
    (l.filter (fun d => decide (d ∉ res ++ [q]))).length + 1 =
      (l.filter (fun d => decide (d ∉ res))).length := by
  have hsplit : l.filter (fun d => decide (d ∉ res ++ [q])) =
      (l.filter (fun d => decide (d ∉ res))).filter
        (fun d => decide (d ≠ q)) := by
    rw [List.filter_filter]
    refine List.filter_congr ?_
    intro d hd
    by_cases hdq : d = q
    · subst hdq
      simp [hqr]
    · simp [List.mem_append, hdq]
  have hqA : q ∈ l.filter (fun d => decide (d ∉ res)) :=
    List.mem_filter.mpr ⟨hq, by simpa using hqr⟩
  have hndA : (l.filter (fun d => decide (d ∉ res))).Nodup :=
    hnd.filter _
  have herase : (l.filter (fun d => decide (d ∉ res))).filter
      (fun d => decide (d ≠ q)) =
      (l.filter (fun d => decide (d ∉ res))).erase q := by
    rw [List.Nodup.erase_eq_filter hndA]
    refine List.filter_congr ?_
    intro x _
    rw [Bool.eq_iff_iff]
    simp
  rw [hsplit, herase, List.length_erase_of_mem hqA]
  have : 1 ≤ (l.filter (fun d => decide (d ∉ res))).length :=
    List.length_pos.mpr (fun he => by rw [he] at hqA; simp at hqA)
  omega

theorem filter_eq_singleton_of_length_one {l : List String} {x : String}
    (hlen : l.length = 1) (hx : x ∈ l) : l = [x] := by
  cases l with
  | nil => simp at hx
  | cons a t =>
    cases t with
    | nil =>
      rcases List.mem_cons.mp hx with h | h
      · rw [h]
      · simp at h
    | cons b t2 => simp at hlen

theorem exists_ne_of_nodup_two_le {L : List String} {q : String}
    (hnd : L.Nodup) (hq : q ∈ L) (hlen : 2 ≤ L.length) :
    ∃ x ∈ L, x ≠ q := by
  cases L with
  | nil => simp at hq
  | cons a t =>
    cases t with
    | nil => simp at hlen
    | cons b t2 =>
      by_cases haq : a = q
      · refine ⟨b, by simp, ?_⟩
        subst haq
        simp only [List.nodup_cons, List.mem_cons] at hnd
        exact fun he => hnd.1 (Or.inl he.symm)
      · exact ⟨a, by simp, haq⟩

theorem indexOf_lt_of_mem_take {α : Type} [DecidableEq α] :
    ∀ (l : List α) (i : Nat) (b : α), b ∈ l.take i → l.indexOf b < i := by
  intro l
  induction l with
  | nil => intro i b h; simp at h
  | cons a l ih =>
    intro i b h
    cases i with
    | zero => simp at h
    | succ j =>
      rw [List.take_succ_cons] at h
      by_cases hab : a = b
      · rw [hab, List.indexOf_cons_self]
        omega
      · rcases List.mem_cons.mp h with h' | h'
        · exact absurd h'.symm hab
        · rw [List.indexOf_cons_ne _ (by simpa using hab)]
          have := ih j b h'
          omega

/-! ## The Kahn loop invariant -/

/-- Invariant of the `while queue:` loop of `topological_sort`. -/
structure KahnInv (g : DependencyGraph) (queue : List String)
    (inDeg : List (String × Int)) (result : List String) : Prop where
  resNodup : result.Nodup
  resSub : ∀ k ∈ result, k ∈ g.tasks.map Prod.fst
  resOrder : ∀ a ∈ result, ∀ d ∈ getDependencies g a,
    d ∈ result.take (result.indexOf a)
  qNodup : queue.Nodup
  qSub : ∀ k ∈ queue, k ∈ g.tasks.map Prod.fst
  qRes : ∀ k ∈ queue, k ∉ result
  qFree : ∀ k ∈ queue, ∀ d ∈ getDependencies g k, d ∈ result
  degKeys : inDeg.map Prod.fst = g.tasks.map Prod.fst
  deg : ∀ k ∈ g.tasks.map Prod.fst, dictGet inDeg k =
    some ((((getDependencies g k).filter
      (fun d => decide (d ∉ result))).length : Int))
  blocked : ∀ k ∈ g.tasks.map Prod.fst, k ∉ result → k ∉ queue →
    ∃ d ∈ getDependencies g k, d ∉ result

theorem KahnInv.resClosed {g queue inDeg result}
    (inv : KahnInv g queue inDeg result) :
    ∀ a ∈ result, ∀ d ∈ getDependencies g a, d ∈ result := by
  intro a ha d hd
  exact List.take_subset _ _ (inv.resOrder a ha d hd)

theorem kahnProcessDependents_spec :
    ∀ (depts : List String), depts.Nodup →
    ∀ (m : List (String × Int)) (pushes : List String),
    (∀ d ∈ depts, d ∈ m.map Prod.fst) →
    ∃ m2, kahnProcessDependents depts m pushes =
      some (m2, pushes ++ depts.filter (fun d => dictGet m d == some 1)) ∧
      (∀ k, dictGet m2 k =
        if k ∈ depts then (dictGet m k).map (· - 1) else dictGet m k) ∧
      m2.map Prod.fst = m.map Prod.fst := by
  intro depts
  induction depts with
  | nil =>
    intro _ m pushes _
    exact ⟨m, by simp [kahnProcessDependents], by intro k; simp, rfl⟩
  | cons d rest ih =>
    intro hnd m pushes hkeys
    simp only [List.nodup_cons] at hnd
    have hd : d ∈ m.map Prod.fst := hkeys d (by simp)
    cases hget : dictGet m d with
    | none =>
      exfalso
      have hs : (dictGet m d).isSome := dictGet_isSome.mpr hd
      rw [hget] at hs
      simp at hs
    | some n =>
      have hkeys1 : ∀ x ∈ rest, x ∈ (dictSet m d (n - 1)).map Prod.fst := by
        intro x hx
        rw [keys_dictSet_of_mem m d (n - 1) hd]
        exact hkeys x (by simp [hx])
      obtain ⟨m2, hrun, hget2, hkeys2⟩ :=
        ih hnd.2 (dictSet m d (n - 1)) (if n - 1 = 0 then pushes ++ [d] else pushes) hkeys1
      have hfiltcongr : rest.filter
          (fun x => dictGet (dictSet m d (n - 1)) x == some 1) =
          rest.filter (fun x => dictGet m x == some 1) := by
        refine List.filter_congr ?_
        intro x hx
        have hxd : x ≠ d := fun he => hnd.1 (he ▸ hx)
        rw [dictGet_dictSet_ne m d (n - 1) hxd]
      have hstep : kahnProcessDependents (d :: rest) m pushes =
          if n - 1 = 0 then
            kahnProcessDependents rest (dictSet m d (n - 1)) (pushes ++ [d])
          else kahnProcessDependents rest (dictSet m d (n - 1)) pushes := by
        simp only [kahnProcessDependents, hget]
      refine ⟨m2, ?_, ?_, hkeys2.trans (keys_dictSet_of_mem m d (n - 1) hd)⟩
      · by_cases hzero : n - 1 = 0
        · have hn1 : n = 1 := by omega
          rw [if_pos hzero] at hrun
          rw [hstep, if_pos hzero, hrun, hfiltcongr]
          have hpred : (dictGet m d == some 1) = true := by
            rw [hget, hn1]; rfl
          rw [filter_cons_pos (fun x => dictGet m x == some 1) d rest hpred]
          simp [List.append_assoc]
        · have hn1 : n ≠ 1 := by omega
          rw [if_neg hzero] at hrun
          rw [hstep, if_neg hzero, hrun, hfiltcongr]
          have hpred : (dictGet m d == some 1) = false := by
            rw [hget]
            simpa using hn1
          rw [filter_cons_neg (fun x => dictGet m x == some 1) d rest hpred]
      · intro k
        rw [hget2 k]
        by_cases hkd : k = d
        · subst hkd
          rw [if_neg (fun hc => hnd.1 hc), if_pos (by simp)]
          rw [dictGet_dictSet_self, hget]
          rfl
        · by_cases hkr : k ∈ rest
          · rw [if_pos hkr, if_pos (by simp [hkr]),
              dictGet_dictSet_ne m d (n - 1) hkd]
          · rw [if_neg hkr, if_neg (by simp [hkd, hkr]),
              dictGet_dictSet_ne m d (n - 1) hkd]

/-- One iteration of the `while queue:` loop preserves the invariant. -/
theorem kahnInv_step {g : DependencyGraph} (hwf : WFGraph g) {q : String}
    {queue : List String} {inDeg : List (String × Int)}
    {result : List String} (inv : KahnInv g (q :: queue) inDeg result) :
    ∃ inDeg2 pushes,
      kahnProcessDependents (getDependents g q) inDeg [] =
        some (inDeg2, pushes) ∧
      KahnInv g (queue ++ pushes) inDeg2 (result ++ [q]) := by
  have hqK : q ∈ g.tasks.map Prod.fst := inv.qSub q (by simp)
  have hqRes : q ∉ result := inv.qRes q (by simp)
  have hqFree : ∀ d ∈ getDependencies g q, d ∈ result :=
    inv.qFree q (by simp)
  have hqueueNodup : queue.Nodup := (List.nodup_cons.mp inv.qNodup).2
  have hqNotQueue : q ∉ queue := (List.nodup_cons.mp inv.qNodup).1
  obtain ⟨inDeg2, hrun, hget2, hkeys2⟩ :=
    kahnProcessDependents_spec (getDependents g q) (wf_depts_nodup hwf q)
      inDeg []
      (fun d hd => by rw [inv.degKeys]; exact wf_depts_key hwf hd)
  simp only [List.nil_append] at hrun
  -- the per-task pending-dependency count
  have hcount : ∀ k ∈ g.tasks.map Prod.fst,
      (dictGet inDeg k = some 1 ↔
        ((getDependencies g k).filter
          (fun d => decide (d ∉ result))).length = 1) := by
    intro k hk
    rw [inv.deg k hk]
    constructor
    · intro h
      have := Option.some_inj.mp h
      exact_mod_cast this
    · intro h
      rw [h]
      rfl
  have hpushMem : ∀ k,
      k ∈ (getDependents g q).filter (fun d => dictGet inDeg d == some 1) ↔
      (q ∈ getDependencies g k ∧
        ((getDependencies g k).filter
          (fun d => decide (d ∉ result))).length = 1) := by
    intro k
    rw [List.mem_filter]
    constructor
    · rintro ⟨hmem, hbeq⟩
      have hkK := wf_depts_key hwf hmem
      have : dictGet inDeg k = some 1 := by simpa using hbeq
      exact ⟨(wf_depts_iff hwf q k).mp hmem, (hcount k hkK).mp this⟩
    · rintro ⟨hmem, hlen⟩
      have hkmem := (wf_depts_iff hwf q k).mpr hmem
      have hkK := wf_depts_key hwf hkmem
      refine ⟨hkmem, by simpa using (hcount k hkK).mpr hlen⟩
  -- members of the result have no pending dependencies
  have hresZero : ∀ k ∈ result,
      ((getDependencies g k).filter
        (fun d => decide (d ∉ result))).length = 0 := by
    intro k hk
    rw [List.length_eq_zero, List.filter_eq_nil_iff]
    intro d hd
    simpa using inv.resClosed k hk d hd
  have hqZero : ((getDependencies g q).filter
      (fun d => decide (d ∉ result))).length = 0 := by
    rw [List.length_eq_zero, List.filter_eq_nil_iff]
    intro d hd
    simpa using hqFree d hd
  have hqueueZero : ∀ k ∈ queue,
      ((getDependencies g k).filter
        (fun d => decide (d ∉ result))).length = 0 := by
    intro k hk
    rw [List.length_eq_zero, List.filter_eq_nil_iff]
    intro d hd
    simpa using inv.qFree k (by simp [hk]) d hd
  refine ⟨inDeg2, _, hrun, ?_⟩
  constructor
  case resNodup =>
    simp only [List.nodup_append, List.nodup_cons, List.nodup_nil]
    exact ⟨inv.resNodup, by simp, by
      intro a ha
      simp only [List.mem_singleton]
      exact fun he => hqRes (he ▸ ha)⟩
  case resSub =>
    intro k hk
    rcases List.mem_append.mp hk with h | h
    · exact inv.resSub k h
    · rw [List.mem_singleton.mp h]; exact hqK
  case resOrder =>
    intro a ha d hd
    rcases List.mem_append.mp ha with h | h
    · rw [List.indexOf_append_of_mem h,
        List.take_append_of_le_length
          (le_of_lt (List.indexOf_lt_length.mpr h))]
      exact inv.resOrder a h d hd
    · rw [List.mem_singleton.mp h] at hd ⊢
      rw [List.indexOf_append_of_not_mem hqRes, List.indexOf_cons_self,
        Nat.add_zero, List.take_left]
      exact hqFree d hd
  case qNodup =>
    simp only [List.nodup_append]
    refine ⟨hqueueNodup, (wf_depts_nodup hwf q).filter _, ?_⟩
    intro k hk
    intro hkP
    have hlen1 := (hpushMem k).mp hkP |>.2
    have := hqueueZero k hk
    omega
  case qSub =>
    intro k hk
    rcases List.mem_append.mp hk with h | h
    · exact inv.qSub k (by simp [h])
    · exact wf_depts_key hwf (List.mem_of_mem_filter h)
  case qRes =>
    intro k hk
    rcases List.mem_append.mp hk with h | h
    · intro hmem
      rcases List.mem_append.mp hmem with h2 | h2
      · exact inv.qRes k (by simp [h]) h2
      · exact hqNotQueue ((List.mem_singleton.mp h2) ▸ h)
    · intro hmem
      have hlen1 := (hpushMem k).mp h |>.2
      rcases List.mem_append.mp hmem with h2 | h2
      · have := hresZero k h2
        omega
      · rw [List.mem_singleton.mp h2] at hlen1
        omega
  case qFree =>
    intro k hk d hd
    rcases List.mem_append.mp hk with h | h
    · exact List.mem_append_left _ (inv.qFree k (by simp [h]) d hd)
    · obtain ⟨hqdep, hlen1⟩ := (hpushMem k).mp h
      by_cases hdres : d ∈ result
      · exact List.mem_append_left _ hdres
      · have hdfilt : d ∈ (getDependencies g k).filter
            (fun x => decide (x ∉ result)) :=
          List.mem_filter.mpr ⟨hd, by simpa using hdres⟩
        have hqfilt : q ∈ (getDependencies g k).filter
            (fun x => decide (x ∉ result)) :=
          List.mem_filter.mpr ⟨hqdep, by simpa using hqRes⟩
        have := filter_eq_singleton_of_length_one hlen1 hqfilt
        rw [this] at hdfilt
        rw [List.mem_singleton.mp hdfilt]
        exact List.mem_append_right _ (by simp)
  case degKeys => exact hkeys2.trans inv.degKeys
  case deg =>
    intro k hk
    rw [hget2 k]
    by_cases hkdepts : k ∈ getDependents g q
    · rw [if_pos hkdepts, inv.deg k hk]
      have hqdep : q ∈ getDependencies g k :=
        (wf_depts_iff hwf q k).mp hkdepts
      have hcnt := @length_filter_notMem_append_single
        (getDependencies g k) result q (wf_deps_nodup hwf k) hqdep hqRes
      simp only [Option.map_some']
      congr 1
      push_cast
      omega
    · rw [if_neg hkdepts, inv.deg k hk]
      have hqdep : q ∉ getDependencies g k :=
        fun hc => hkdepts ((wf_depts_iff hwf q k).mpr hc)
      rw [filter_notMem_append_single hqdep]
  case blocked =>
    intro k hk hkres hkq
    have hknotresult : k ∉ result :=
      fun hc => hkres (List.mem_append_left _ hc)
    have hkneq : k ≠ q :=
      fun hc => hkres (List.mem_append_right _ (by simp [hc]))
    have hknotqueue : k ∉ queue :=
      fun hc => hkq (List.mem_append_left _ hc)
    have hknotpush : k ∉ (getDependents g q).filter
        (fun d => dictGet inDeg d == some 1) :=
      fun hc => hkq (List.mem_append_right _ hc)
    have hknotcons : k ∉ q :: queue := by
      simp only [List.mem_cons, not_or]
      exact ⟨hkneq, hknotqueue⟩
    obtain ⟨d, hd, hdres⟩ := inv.blocked k hk hknotresult hknotcons
    by_cases hqdep : q ∈ getDependencies g k
    · -- k was decremented but not pushed: at least two pending deps
      have hlen : ((getDependencies g k).filter
          (fun x => decide (x ∉ result))).length ≠ 1 :=
        fun hc => hknotpush ((hpushMem k).mpr ⟨hqdep, hc⟩)
      have hqfilt : q ∈ (getDependencies g k).filter
          (fun x => decide (x ∉ result)) :=
        List.mem_filter.mpr ⟨hqdep, by simpa using hqRes⟩
      have hge1 : 1 ≤ ((getDependencies g k).filter
          (fun x => decide (x ∉ result))).length :=
        List.length_pos.mpr (fun he => by rw [he] at hqfilt; simp at hqfilt)
      have hge2 : 2 ≤ ((getDependencies g k).filter
          (fun x => decide (x ∉ result))).length := by omega
      obtain ⟨x, hx, hxq⟩ := exists_ne_of_nodup_two_le
        ((wf_deps_nodup hwf k).filter _) hqfilt hge2
      obtain ⟨hxdep, hxres⟩ := List.mem_filter.mp hx
      refine ⟨x, hxdep, ?_⟩
      intro hc
      rcases List.mem_append.mp hc with h | h
      · have hxres2 : x ∉ result := by simpa using hxres
        exact hxres2 h
      · exact hxq (List.mem_singleton.mp h)
    · refine ⟨d, hd, ?_⟩
      intro hc
      rcases List.mem_append.mp hc with h | h
      · exact hdres h
      · exact hqdep ((List.mem_singleton.mp h) ▸ hd)

/-- The `while queue:` loop runs to completion: with the fuel
`topological_sort` supplies it always drains the queue. -/
theorem kahnAux_ok {g : DependencyGraph} (hwf : WFGraph g) :
    ∀ (fuel : Nat) (queue : List String) (inDeg : List (String × Int))
    (result : List String), KahnInv g queue inDeg result →
    g.tasks.length + 1 ≤ result.length + fuel →
    ∃ result2 inDeg2,
      kahnAux g fuel queue inDeg result = .ok result2 ∧
      KahnInv g [] inDeg2 result2 := by
  intro fuel
  induction fuel with
  | zero =>
    intro queue inDeg result inv hfuel
    cases queue with
    | nil => exact ⟨result, inDeg, rfl, inv⟩
    | cons q rest =>
      exfalso
      have hle : result.length ≤ g.tasks.length := by
        have := length_le_of_nodup_subset inv.resNodup inv.resSub
        simpa using this
      omega
  | succ fuel ih =>
    intro queue inDeg result inv hfuel
    cases queue with
    | nil => exact ⟨result, inDeg, rfl, inv⟩
    | cons q rest =>
      obtain ⟨inDeg2, pushes, hrun, inv2⟩ := kahnInv_step hwf inv
      have hstep : kahnAux g (fuel + 1) (q :: rest) inDeg result =
          kahnAux g fuel (rest ++ pushes) inDeg2 (result ++ [q]) := by
        simp only [kahnAux, hrun]
      rw [hstep]
      refine ih _ _ _ inv2 ?_
      simp only [List.length_append, List.length_cons, List.length_nil]
      omega

/-- The invariant holds on entry to the loop. -/
theorem kahnInit_inv {g : DependencyGraph} (hwf : WFGraph g) :
    KahnInv g (((kahnInitDeg g).filter (fun p => p.2 == 0)).map Prod.fst)
      (kahnInitDeg g) [] := by
  have hkeysnd : ((kahnInitDeg g).map Prod.fst).Nodup := by
    rw [kahnInitDeg_keys hwf]; exact hwf.1
  have hqmem : ∀ k,
      k ∈ ((kahnInitDeg g).filter (fun p => p.2 == 0)).map Prod.fst ↔
      (k ∈ g.tasks.map Prod.fst ∧ getDependencies g k = []) := by
    intro k
    constructor
    · intro h
      obtain ⟨p, hp, hfst⟩ := List.mem_map.mp h
      obtain ⟨k0, v0⟩ := p
      obtain ⟨hpmem, hp0⟩ := List.mem_filter.mp hp
      subst hfst
      have hget : dictGet (kahnInitDeg g) k0 = some v0 :=
        dictGet_of_mem_nodupKeys _ hkeysnd _ _ hpmem
      have hkK : k0 ∈ g.tasks.map Prod.fst := by
        rw [← kahnInitDeg_keys hwf]
        exact dictGet_isSome.mp (by rw [hget]; rfl)
      have hvlen := kahnInitDeg_get hwf hkK
      rw [hget] at hvlen
      have hv0 : v0 = ((getDependencies g k0).length : Int) :=
        Option.some_inj.mp hvlen
      have hz : v0 = 0 := by simpa using hp0
      refine ⟨hkK, ?_⟩
      rw [hz] at hv0
      have : (getDependencies g k0).length = 0 := by exact_mod_cast hv0.symm
      exact List.length_eq_zero.mp this
    · rintro ⟨hk, hdeps⟩
      have hget := kahnInitDeg_get hwf hk
      rw [hdeps] at hget
      simp only [List.length_nil, Nat.cast_zero] at hget
      have hentry : (k, (0 : Int)) ∈ kahnInitDeg g :=
        dictGet_mem_of_eq_some hget
      exact List.mem_map.mpr
        ⟨(k, 0), List.mem_filter.mpr ⟨hentry, by simp⟩, rfl⟩
  constructor
  case resNodup => exact List.nodup_nil
  case resSub => intro k hk; simp at hk
  case resOrder => intro a ha; simp at ha
  case qNodup =>
    exact ((List.filter_sublist _).map Prod.fst).nodup hkeysnd
  case qSub => intro k hk; exact ((hqmem k).mp hk).1
  case qRes => intro k hk; simp
  case qFree =>
    intro k hk d hd
    rw [((hqmem k).mp hk).2] at hd
    simp at hd
  case degKeys => exact kahnInitDeg_keys hwf
  case deg =>
    intro k hk
    rw [kahnInitDeg_get hwf hk]
    have hfilt : (getDependencies g k).filter
        (fun d => decide (d ∉ ([] : List String))) = getDependencies g k := by
      simp
    rw [hfilt]
  case blocked =>
    intro k hk hres hq
    have hne : getDependencies g k ≠ [] := by
      intro he
      exact hq ((hqmem k).mpr ⟨hk, he⟩)
    obtain ⟨d, hd⟩ := List.exists_mem_of_ne_nil _ hne
    exact ⟨d, hd, by simp⟩

/-- `topological_sort` runs Kahn's loop to completion and applies the
length check to a final state satisfying the invariant. -/
theorem topologicalSort_run {g : DependencyGraph} (hwf : WFGraph g) :
    ∃ result2 inDeg2, KahnInv g [] inDeg2 result2 ∧
      topologicalSort g =
        (if result2.length ≠ g.tasks.length then TopoResult.cycleError
         else TopoResult.ok result2) := by
  obtain ⟨result2, inDeg2, hrun, hinv⟩ :=
    kahnAux_ok hwf (g.tasks.length + 1) _ _ [] (kahnInit_inv hwf) (by simp)
  refine ⟨result2, inDeg2, hinv, ?_⟩
  simp only [topologicalSort, hrun]

theorem kahnFinal_covers_of_acyclic {g : DependencyGraph}
    (hwf : WFGraph g) {inDeg : List (String × Int)} {result : List String}
    (inv : KahnInv g [] inDeg result) (hac : ¬ HasCycleG g) :
    ∀ k ∈ g.tasks.map Prod.fst, k ∈ result := by
  by_contra hc
  push_neg at hc
  obtain ⟨k0, hk0, hk0r⟩ := hc
  have hk0L : k0 ∈ (g.tasks.map Prod.fst).filter
      (fun k => decide (k ∉ result)) :=
    List.mem_filter.mpr ⟨hk0, by simpa using hk0r⟩
  have hne : (g.tasks.map Prod.fst).filter
      (fun k => decide (k ∉ result)) ≠ [] := by
    intro he; rw [he] at hk0L; simp at hk0L
  have hstep : ∀ a ∈ (g.tasks.map Prod.fst).filter
      (fun k => decide (k ∉ result)),
      ∃ b ∈ (g.tasks.map Prod.fst).filter
        (fun k => decide (k ∉ result)), DepStepG g a b := by
    intro a ha
    obtain ⟨haK, har⟩ := List.mem_filter.mp ha
    have har2 : a ∉ result := by simpa using har
    obtain ⟨d, hd, hdr⟩ := inv.blocked a haK har2 (by simp)
    exact ⟨d, List.mem_filter.mpr
      ⟨wf_deps_closed hwf hd, by simpa using hdr⟩, hd⟩
  obtain ⟨a, hcyc⟩ := exists_transGen_self_of_step (DepStepG g) _ hne hstep
  exact hac ⟨a, hcyc⟩

theorem kahnFinal_no_cycle_of_covers {g : DependencyGraph}
    (hwf : WFGraph g) {inDeg : List (String × Int)} {result : List String}
    (inv : KahnInv g [] inDeg result)
    (hcov : ∀ k ∈ g.tasks.map Prod.fst, k ∈ result) : ¬ HasCycleG g := by
  rintro ⟨a, hcyc⟩
  have hstep : ∀ x y, DepStepG g x y → x ∈ result →
      y ∈ result ∧ result.indexOf y < result.indexOf x := by
    intro x y h hx
    have htake := inv.resOrder x hx y h
    exact ⟨List.take_subset _ _ htake, indexOf_lt_of_mem_take _ _ _ htake⟩
  have hmem : a ∈ result := by
    obtain ⟨c, h, -⟩ := Relation.TransGen.head'_iff.mp hcyc
    exact hcov a (wf_deps_key hwf h)
  exact not_transGen_self_of_ordered (DepStepG g) result hstep a hmem hcyc

theorem kahnFinal_length_eq_of_covers {g : DependencyGraph}
    (hwf : WFGraph g) {inDeg : List (String × Int)} {result : List String}
    (inv : KahnInv g [] inDeg result)
    (hcov : ∀ k ∈ g.tasks.map Prod.fst, k ∈ result) :
    result.length = g.tasks.length := by
  have h1 : result.toFinset = (g.tasks.map Prod.fst).toFinset := by
    apply Finset.Subset.antisymm
    · intro x hx
      simp only [List.mem_toFinset] at hx ⊢
      exact inv.resSub x hx
    · intro x hx
      simp only [List.mem_toFinset] at hx ⊢
      exact hcov x hx
  calc result.length = result.toFinset.card :=
        (List.toFinset_card_of_nodup inv.resNodup).symm
    _ = (g.tasks.map Prod.fst).toFinset.card := by rw [h1]
    _ = (g.tasks.map Prod.fst).length :=
        List.toFinset_card_of_nodup hwf.1
    _ = g.tasks.length := by simp

theorem kahnFinal_covers_of_length_eq {g : DependencyGraph}
    (hwf : WFGraph g) {inDeg : List (String × Int)} {result : List String}
    (inv : KahnInv g [] inDeg result)
    (hlen : result.length = g.tasks.length) :
    ∀ k ∈ g.tasks.map Prod.fst, k ∈ result := by
  have hsub : result.toFinset ⊆ (g.tasks.map Prod.fst).toFinset := by
    intro x hx
    simp only [List.mem_toFinset] at hx ⊢
    exact inv.resSub x hx
  have hcard : (g.tasks.map Prod.fst).toFinset.card ≤ result.toFinset.card := by
    rw [List.toFinset_card_of_nodup inv.resNodup,
      List.toFinset_card_of_nodup hwf.1]
    simp [hlen]
  have heq := Finset.eq_of_subset_of_card_le hsub hcard
  intro k hk
  have : k ∈ result.toFinset := by
    rw [heq]
    simpa using hk
  simpa using this

/-! ## The DFS potential and black order -/

/-- Fuel potential of a colour dict: every white node still has to pay for
its visit, its blackening and the scan of its dependency list. -/
def dfsPotential (g : DependencyGraph)
    (color : List (String × Color)) : Nat :=
  (color.map (fun p =>
    if p.2 == Color.white then 2 + (getDependencies g p.1).length
    else 0)).sum

/-- A topological order of the blackened nodes: every in-graph dependency
of a black node was blackened strictly earlier. -/
def BlackOrder (g : DependencyGraph) (color : List (String × Color))
    (L : List String) : Prop :=
  L.Nodup ∧ (∀ k, dictGet color k = some Color.black ↔ k ∈ L) ∧
  ∀ a ∈ L, ∀ d ∈ getDependencies g a, d ∈ g.tasks.map Prod.fst →
    d ∈ L.take (L.indexOf a)

theorem dfsPotential_mapOverwrite_le (g : DependencyGraph) :
    ∀ (m : List (String × Color)) (t : String) (c : Color),
    (c == Color.white) = false →
    dfsPotential g (m.map (fun p => if p.1 == t then (t, c) else p)) ≤
      dfsPotential g m := by
  intro m
  induction m with
  | nil => intro t c hc; simp [dfsPotential]
  | cons p m ih =>
    intro t c hc
    unfold dfsPotential at *
    simp only [List.map_cons, List.sum_cons]
    have htail := ih t c hc
    have hhead : (if (if p.1 == t then (t, c) else p).2 == Color.white then
        2 + (getDependencies g (if p.1 == t then (t, c) else p).1).length
        else 0) ≤
        (if p.2 == Color.white then
          2 + (getDependencies g p.1).length else 0) := by
      by_cases hpt : (p.1 == t) = true
      · simp only [hpt, if_true, hc, Bool.false_eq_true]
        simp
      · simp only [hpt]
        simp
    omega

theorem dfsPotential_append_single (g : DependencyGraph)
    (m : List (String × Color)) (t : String) (c : Color)
    (hc : (c == Color.white) = false) :
    dfsPotential g (m ++ [(t, c)]) = dfsPotential g m := by
  unfold dfsPotential
  rw [List.map_append, List.sum_append]
  have hcne : c ≠ Color.white := by simpa using hc
  simp [hcne]

theorem dfsPotential_dictSet_le (g : DependencyGraph)
    (m : List (String × Color)) (t : String) (c : Color)
    (hc : (c == Color.white) = false) :
    dfsPotential g (dictSet m t c) ≤ dfsPotential g m := by
  unfold dictSet
  split
  · exact dfsPotential_mapOverwrite_le g m t c hc
  · rw [dfsPotential_append_single g m t c hc]

theorem dfsPotential_gray_add (g : DependencyGraph) :
    ∀ (m : List (String × Color)) (t : String),
    dictGet m t = some Color.white →
    dfsPotential g (dictSet m t Color.gray) +
      (2 + (getDependencies g t).length) ≤ dfsPotential g m := by
  intro m t hw
  have hmem : t ∈ m.map Prod.fst := dictGet_isSome.mp (by rw [hw]; rfl)
  unfold dictSet
  rw [if_pos (any_key_iff.mpr hmem)]
  clear hmem
  induction m with
  | nil => simp [dictGet, List.find?] at hw
  | cons p m ih =>
    unfold dfsPotential at *
    simp only [List.map_cons, List.sum_cons]
    by_cases hpt : (p.1 == t) = true
    · have hp1 : p.1 = t := by simpa using hpt
      have hp2 : p.2 = Color.white := by
        unfold dictGet at hw
        rw [find?_cons_pos (fun q => q.1 == t) p m hpt] at hw
        simpa using hw
      simp only [hpt, if_true]
      have htail := dfsPotential_mapOverwrite_le g m t Color.gray (by rfl)
      unfold dfsPotential at htail
      simp only [hp2, hp1]
      simp only [show (Color.gray == Color.white) = false from rfl,
        Bool.false_eq_true, if_false,
        show (Color.white == Color.white) = true from rfl, if_true]
      omega
    · have hw2 : dictGet m t = some Color.white := by
        unfold dictGet at hw ⊢
        rwa [find?_cons_neg (fun q => q.1 == t) p m
          (by simpa using hpt)] at hw
      have := ih hw2
      simp only [hpt, Bool.false_eq_true, if_false]
      omega

theorem dfsPotential_le_total {g : DependencyGraph}
    {color : List (String × Color)}
    (hkeys : color.map Prod.fst = g.tasks.map Prod.fst) :
    dfsPotential g color ≤
      (g.tasks.map (fun p => 2 + (getDependencies g p.1).length)).sum := by
  unfold dfsPotential
  have h1 : (color.map (fun p =>
      if p.2 == Color.white then 2 + (getDependencies g p.1).length
      else 0)).sum ≤
      (color.map (fun p => 2 + (getDependencies g p.1).length)).sum := by
    apply List.sum_le_sum
    intro p hp
    split <;> omega
  have h2 : (color.map (fun p => 2 + (getDependencies g p.1).length)) =
      (g.tasks.map (fun p => 2 + (getDependencies g p.1).length)) := by
    have : ∀ (l : List (String × Color)),
        l.map (fun p => 2 + (getDependencies g p.1).length) =
        (l.map Prod.fst).map (fun k => 2 + (getDependencies g k).length) := by
      intro l; rw [List.map_map]; rfl
    rw [this, hkeys, List.map_map]
    rfl
  rw [h2] at h1
  exact h1

/-- A dependency chain with the same first and last element yields a
cycle of the stored relation. -/
theorem transGen_of_chain {α : Type} (R : α → α → Prop) :
    ∀ (l : List α) (a b : α), List.Chain R a l → l.getLast? = some b →
    Relation.TransGen R a b := by
  intro l
  induction l with
  | nil => intro a b _ h; simp at h
  | cons c l ih =>
    intro a b hchain hlast
    rcases hchain with _ | ⟨hac, hchain'⟩
    cases l with
    | nil =>
      have : b = c := by simpa using hlast.symm
      exact this ▸ Relation.TransGen.single hac
    | cons e l2 =>
      have hlast2 : (e :: l2).getLast? = some b := by
        rw [← hlast]
        rfl
      exact Relation.TransGen.head hac (ih c b hchain' hlast2)

/-- Ordered black lists preclude cycles (under dependency closedness). -/
theorem no_cycle_of_blackOrder {g : DependencyGraph} (hwf : WFGraph g)
    {color : List (String × Color)} {L : List String}
    (hbo : BlackOrder g color L)
    (hcov : ∀ k ∈ g.tasks.map Prod.fst, k ∈ L) : ¬ HasCycleG g := by
  rintro ⟨a, hcyc⟩
  have hstep : ∀ x y, DepStepG g x y → x ∈ L →
      y ∈ L ∧ L.indexOf y < L.indexOf x := by
    intro x y h hx
    have htake := hbo.2.2 x hx y h (wf_deps_closed hwf h)
    exact ⟨List.take_subset _ _ htake, indexOf_lt_of_mem_take _ _ _ htake⟩
  have hmem : a ∈ L := by
    obtain ⟨c, h, -⟩ := Relation.TransGen.head'_iff.mp hcyc
    exact hcov a (wf_deps_key hwf h)
  exact not_transGen_self_of_ordered (DepStepG g) L hstep a hmem hcyc

/-- Common state invariant of the running DFS. -/
def DfsStInv (g : DependencyGraph) (st : DfsState) : Prop :=
  st.color.map Prod.fst = g.tasks.map Prod.fst ∧
  (∀ k, dictGet st.color k = some Color.gray ↔ k ∈ st.path) ∧
  st.path.Nodup ∧
  List.Chain' (fun a b => b ∈ getDependencies g a) st.path ∧
  (∃ L, BlackOrder g st.color L)

/-- Relation between the input and output states of a clean `dfs`
activity: path restored, grays restored, blacks only grow, potential only
shrinks. -/
def DfsPost (g : DependencyGraph) (st st2 : DfsState) : Prop :=
  st2.color.map Prod.fst = st.color.map Prod.fst ∧
  st2.path = st.path ∧
  (∀ k, dictGet st2.color k = some Color.gray ↔
    dictGet st.color k = some Color.gray) ∧
  (∀ k, dictGet st.color k = some Color.black →
    dictGet st2.color k = some Color.black) ∧
  dfsPotential g st2.color ≤ dfsPotential g st.color ∧
  (∃ L, BlackOrder g st2.color L)

theorem dfsPost_refl {g : DependencyGraph} {st : DfsState}
    (hbo : ∃ L, BlackOrder g st.color L) : DfsPost g st st :=
  ⟨rfl, rfl, fun _ => Iff.rfl, fun _ h => h, le_refl _, hbo⟩

theorem dfsPost_trans {g : DependencyGraph} {st st2 st3 : DfsState}
    (h1 : DfsPost g st st2) (h2 : DfsPost g st2 st3) : DfsPost g st st3 :=
  ⟨h2.1.trans h1.1, h2.2.1.trans h1.2.1,
   fun k => (h2.2.2.1 k).trans (h1.2.2.1 k),
   fun k h => h2.2.2.2.1 k (h1.2.2.2.1 k h),
   le_trans h2.2.2.2.2.1 h1.2.2.2.2.1, h2.2.2.2.2.2⟩

theorem dfsStInv_ofPost {g : DependencyGraph} {st st2 : DfsState}
    (hinv : DfsStInv g st) (hpost : DfsPost g st st2) : DfsStInv g st2 :=
  ⟨hpost.1.trans hinv.1,
   fun k => (hpost.2.2.1 k).trans ((hinv.2.1 k).trans (by rw [hpost.2.1])),
   hpost.2.1 ▸ hinv.2.2.1, hpost.2.1 ▸ hinv.2.2.2.1, hpost.2.2.2.2.2⟩

theorem chain_append_singleton {α : Type} (R : α → α → Prop) :
    ∀ (l : List α) (a b : α), List.Chain R a l →
    (∀ x ∈ (a :: l).getLast?, R x b) → List.Chain R a (l ++ [b]) := by
  intro l
  induction l with
  | nil =>
    intro a b _ h
    exact List.Chain.cons (h a rfl) List.Chain.nil
  | cons c l ih =>
    intro a b hchain h
    rcases hchain with _ | ⟨hac, hchain'⟩
    refine List.Chain.cons hac (ih c b hchain' ?_)
    intro x hx
    exact h x hx

/-- The inner `dfs` of `detect_cycles` never exhausts its fuel under the
supplied potential bound, reports a cycle only when the relation has one,
and on a clean return has restored the path, restored the grays, and
blackened the visited node with all its in-graph dependencies (keeping
the blacks topologically ordered). -/
theorem dfsRun_spec {g : DependencyGraph} (hwf : WFGraph g) :
    ∀ (fuel : Nat) (call : DfsCall) (st : DfsState),
    DfsStInv g st →
    (match call with
     | DfsCall.visit t =>
        dictGet st.color t = some Color.white ∧
        (∀ t₀ ∈ st.path.getLast?, t ∈ getDependencies g t₀) ∧
        dfsPotential g st.color ≤ fuel
     | DfsCall.scan deps =>
        (st.path ≠ [] ∧
          ∀ t₀ ∈ st.path.getLast?, ∀ d ∈ deps, d ∈ getDependencies g t₀) ∧
        1 + deps.length + dfsPotential g st.color ≤ fuel) →
    (match dfsRun g fuel call st with
     | (DfsRes.fuelOut, _) => False
     | (DfsRes.found _, _) => HasCycleG g
     | (DfsRes.clean, st2) =>
        DfsPost g st st2 ∧
        (match call with
         | DfsCall.visit t => dictGet st2.color t = some Color.black
         | DfsCall.scan deps => ∀ d ∈ deps, d ∈ g.tasks.map Prod.fst →
            dictGet st2.color d = some Color.black)) := by
  intro fuel
  induction fuel with
  | zero =>
    intro call st hinv hpre
    match call with
    | DfsCall.visit t =>
      exfalso
      obtain ⟨hw, -, hfuel⟩ := hpre
      have := dfsPotential_gray_add g st.color t hw
      omega
    | DfsCall.scan deps =>
      exfalso
      obtain ⟨-, hfuel⟩ := hpre
      omega
  | succ f ih =>
    intro call st hinv hpre
    match call with
    | DfsCall.scan [] =>
      have hrun : dfsRun g (f + 1) (DfsCall.scan []) st =
          (DfsRes.clean, st) := rfl
      rw [hrun]
      exact ⟨dfsPost_refl hinv.2.2.2.2, by intro d hd; simp at hd⟩
    | DfsCall.scan (d :: rest) =>
      obtain ⟨⟨hpne, hsub⟩, hfuel⟩ := hpre
      have hrun : dfsRun g (f + 1) (DfsCall.scan (d :: rest)) st =
          (match dictGet st.color d with
           | none => dfsRun g f (DfsCall.scan rest) st
           | some Color.gray =>
             (DfsRes.found
               (st.path.drop (st.path.indexOf d) ++ [d]), st)
           | some Color.black => dfsRun g f (DfsCall.scan rest) st
           | some Color.white =>
             match dfsRun g f (DfsCall.visit d) st with
             | (DfsRes.clean, st2) => dfsRun g f (DfsCall.scan rest) st2
             | other => other) := rfl
      rw [hrun]
      have hpre_rest : ∀ st' : DfsState, DfsStInv g st' →
          st'.path = st.path →
          dfsPotential g st'.color ≤ dfsPotential g st.color →
          (st'.path ≠ [] ∧ ∀ t₀ ∈ st'.path.getLast?, ∀ dd ∈ rest,
            dd ∈ getDependencies g t₀) ∧
          1 + rest.length + dfsPotential g st'.color ≤ f := by
        intro st' hinv' hpath hphi
        refine ⟨⟨hpath ▸ hpne, ?_⟩, ?_⟩
        · rw [hpath]
          intro t₀ ht₀ dd hdd
          exact hsub t₀ ht₀ dd (by simp [hdd])
        · simp only [List.length_cons] at hfuel
          omega
      cases hcol : dictGet st.color d with
      | none =>
        have hres := ih (DfsCall.scan rest) st hinv
          (hpre_rest st hinv rfl (le_refl _))
        match hr : dfsRun g f (DfsCall.scan rest) st with
        | (DfsRes.fuelOut, st2) => rw [hr] at hres; exact hres
        | (DfsRes.found c, st2) => rw [hr] at hres; exact hres
        | (DfsRes.clean, st2) =>
          rw [hr] at hres
          obtain ⟨hpost, hblack⟩ := hres
          refine ⟨hpost, ?_⟩
          intro dd hdd hK
          rcases List.mem_cons.mp hdd with h | h
          · exfalso
            subst h
            have : dd ∈ st.color.map Prod.fst := hinv.1 ▸ hK
            exact absurd (dictGet_isSome.mpr this) (by rw [hcol]; simp)
          · exact hblack dd h hK
      | some c0 =>
        cases c0 with
        | gray =>
          -- the gray dependency closes a cycle of the stored relation
          have hdpath : d ∈ st.path := (hinv.2.1 d).mp hcol
          obtain ⟨t₀, ht₀⟩ :=
            Option.isSome_iff_exists.mp
              (List.getLast?_isSome.mpr hpne)
          have hedge : d ∈ getDependencies g t₀ :=
            hsub t₀ ht₀ d (by simp)
          have hj : st.path.indexOf d < st.path.length :=
            List.indexOf_lt_length.mpr hdpath
          have hdrop : st.path.drop (st.path.indexOf d) =
              d :: st.path.drop (st.path.indexOf d + 1) := by
            rw [List.drop_eq_getElem_cons hj]
            rw [List.getElem_indexOf hj]
          have hchain_drop :
              List.Chain' (fun a b => b ∈ getDependencies g a)
                (st.path.drop (st.path.indexOf d)) :=
            (hinv.2.2.2.1).drop _
          have hlast_drop :
              (st.path.drop (st.path.indexOf d)).getLast? = some t₀ := by
            have hne : st.path.drop (st.path.indexOf d) ≠ [] := by
              rw [hdrop]; simp
            calc (st.path.drop (st.path.indexOf d)).getLast?
                = (st.path.take (st.path.indexOf d) ++
                    st.path.drop (st.path.indexOf d)).getLast? :=
                  (List.getLast?_append_of_ne_nil _ hne).symm
              _ = st.path.getLast? := by
                  rw [List.take_append_drop]
              _ = some t₀ := ht₀
          have hcycle : Relation.TransGen (DepStepG g) d d := by
            have hchain2 : List.Chain (fun a b => b ∈ getDependencies g a)
                d (st.path.drop (st.path.indexOf d + 1)) := by
              have := hchain_drop
              rw [hdrop] at this
              exact this
            have hchain3 : List.Chain (fun a b => b ∈ getDependencies g a)
                d (st.path.drop (st.path.indexOf d + 1) ++ [d]) := by
              refine chain_append_singleton _ _ d d hchain2 ?_
              intro x hx
              have : (d :: st.path.drop (st.path.indexOf d + 1)).getLast?
                  = some t₀ := by rw [← hdrop]; exact hlast_drop
              rw [this] at hx
              rw [Option.mem_def, Option.some_inj] at hx
              exact hx ▸ hedge
            exact transGen_of_chain _ _ d d hchain3
              (List.getLast?_concat _)
          exact ⟨d, hcycle⟩
        | black =>
          have hres := ih (DfsCall.scan rest) st hinv
            (hpre_rest st hinv rfl (le_refl _))
          match hr : dfsRun g f (DfsCall.scan rest) st with
          | (DfsRes.fuelOut, st2) => rw [hr] at hres; exact hres
          | (DfsRes.found c, st2) => rw [hr] at hres; exact hres
          | (DfsRes.clean, st2) =>
            rw [hr] at hres
            obtain ⟨hpost, hblack⟩ := hres
            refine ⟨hpost, ?_⟩
            intro dd hdd hK
            rcases List.mem_cons.mp hdd with h | h
            · subst h
              exact hpost.2.2.2.1 dd hcol
            · exact hblack dd h hK
        | white =>
          have hvisitpre : dictGet st.color d = some Color.white ∧
              (∀ t₀ ∈ st.path.getLast?, d ∈ getDependencies g t₀) ∧
              dfsPotential g st.color ≤ f := by
            refine ⟨hcol, ?_, ?_⟩
            · intro t₀ ht₀
              exact hsub t₀ ht₀ d (by simp)
            · simp only [List.length_cons] at hfuel
              omega
          have hres := ih (DfsCall.visit d) st hinv hvisitpre
          match hr : dfsRun g f (DfsCall.visit d) st with
          | (DfsRes.fuelOut, st2) => rw [hr] at hres; exact hres
          | (DfsRes.found c, st2) => rw [hr] at hres; exact hres
          | (DfsRes.clean, st2) =>
            rw [hr] at hres
            obtain ⟨hpost, hdblack⟩ := hres
            show (match dfsRun g f (DfsCall.scan rest) st2 with
              | (DfsRes.fuelOut, _) => False
              | (DfsRes.found _, _) => HasCycleG g
              | (DfsRes.clean, st3) =>
                 DfsPost g st st3 ∧
                 ∀ dd ∈ d :: rest, dd ∈ g.tasks.map Prod.fst →
                   dictGet st3.color dd = some Color.black)
            have hinv2 := dfsStInv_ofPost hinv hpost
            have hres2 := ih (DfsCall.scan rest) st2 hinv2
              (hpre_rest st2 hinv2 hpost.2.1 hpost.2.2.2.2.1)
            match hr2 : dfsRun g f (DfsCall.scan rest) st2 with
            | (DfsRes.fuelOut, st3) => rw [hr2] at hres2; exact hres2
            | (DfsRes.found c, st3) => rw [hr2] at hres2; exact hres2
            | (DfsRes.clean, st3) =>
              rw [hr2] at hres2
              obtain ⟨hpost2, hblack2⟩ := hres2
              refine ⟨dfsPost_trans hpost hpost2, ?_⟩
              intro dd hdd hK
              rcases List.mem_cons.mp hdd with h | h
              · subst h
                exact hpost2.2.2.2.1 dd hdblack
              · exact hblack2 dd h hK
    | DfsCall.visit t =>
      obtain ⟨hw, hedge, hfuel⟩ := hpre
      have htK : t ∈ st.color.map Prod.fst :=
        dictGet_isSome.mp (by rw [hw]; rfl)
      have htpath : t ∉ st.path := by
        intro hc
        have := (hinv.2.1 t).mpr hc
        rw [hw] at this
        simp at this
      have hrun : dfsRun g (f + 1) (DfsCall.visit t) st =
          (match dfsRun g f (DfsCall.scan (getDependencies g t))
             ⟨dictSet st.color t Color.gray, st.path ++ [t]⟩ with
           | (DfsRes.clean, st2) =>
             (DfsRes.clean,
               ⟨dictSet st2.color t Color.black, st2.path.dropLast⟩)
           | other => other) := rfl
      rw [hrun]
      set st1 : DfsState :=
        ⟨dictSet st.color t Color.gray, st.path ++ [t]⟩ with hst1
      have hkeys1 : st1.color.map Prod.fst = st.color.map Prod.fst :=
        keys_dictSet_of_mem _ _ _ htK
      have hgray1 : ∀ k, dictGet st1.color k = some Color.gray ↔
          k ∈ st.path ∨ k = t := by
        intro k
        by_cases hkt : k = t
        · subst hkt
          rw [show dictGet st1.color k = some Color.gray from
            dictGet_dictSet_self _ _ _]
          simp
        · rw [show dictGet st1.color k = dictGet st.color k from
            dictGet_dictSet_ne _ _ _ hkt]
          rw [hinv.2.1 k]
          simp [hkt]
      have hblack1 : ∀ k, dictGet st1.color k = some Color.black ↔
          dictGet st.color k = some Color.black := by
        intro k
        by_cases hkt : k = t
        · subst hkt
          rw [show dictGet st1.color k = some Color.gray from
            dictGet_dictSet_self _ _ _, hw]
          simp
        · rw [show dictGet st1.color k = dictGet st.color k from
            dictGet_dictSet_ne _ _ _ hkt]
      have hinv1 : DfsStInv g st1 := by
        refine ⟨hkeys1.trans hinv.1, ?_, ?_, ?_, ?_⟩
        · intro k
          rw [hgray1 k]
          simp only [hst1]
          simp [List.mem_append]
        · simp only [hst1]
          simp only [List.nodup_append, List.nodup_cons, List.nodup_nil]
          exact ⟨hinv.2.2.1, by simp, by
            intro a ha
            simp only [List.mem_singleton]
            exact fun he => htpath (he ▸ ha)⟩
        · simp only [hst1]
          cases hpath : st.path with
          | nil => simp
          | cons p0 prest =>
            rw [← hpath]
            have hch : List.Chain' (fun a b => b ∈ getDependencies g a)
                st.path := hinv.2.2.2.1
            rw [List.chain'_append]
            refine ⟨hch, by simp, ?_⟩
            intro x hx y hy
            simp only [List.head?_cons, Option.mem_def,
              Option.some_inj] at hy
            rw [← hy]
            exact hedge x hx
        · obtain ⟨L, hL⟩ := hinv.2.2.2.2
          refine ⟨L, hL.1, ?_, hL.2.2⟩
          intro k
          rw [hblack1 k]
          exact hL.2.1 k
      have hscanpre :
          (st1.path ≠ [] ∧ ∀ t₀ ∈ st1.path.getLast?,
            ∀ dd ∈ getDependencies g t, dd ∈ getDependencies g t₀) ∧
          1 + (getDependencies g t).length +
            dfsPotential g st1.color ≤ f := by
        constructor
        · constructor
          · simp [hst1]
          · intro t₀ ht₀ dd hdd
            have : st1.path.getLast? = some t := by
              simp only [hst1]
              exact List.getLast?_concat _
            rw [this] at ht₀
            rw [Option.mem_def, Option.some_inj] at ht₀
            rw [← ht₀]
            exact hdd
        · have := dfsPotential_gray_add g st.color t hw
          simp only [hst1]
          omega
      have hres := ih (DfsCall.scan (getDependencies g t)) st1 hinv1
        hscanpre
      match hr : dfsRun g f (DfsCall.scan (getDependencies g t)) st1 with
      | (DfsRes.fuelOut, st2) => rw [hr] at hres; exact hres
      | (DfsRes.found c, st2) => rw [hr] at hres; exact hres
      | (DfsRes.clean, st2) =>
        rw [hr] at hres
        obtain ⟨hpost, hblackdeps⟩ := hres
        have ht2K : t ∈ st2.color.map Prod.fst := by
          rw [hpost.1, hkeys1]
          exact htK
        have htgray2 : dictGet st2.color t = some Color.gray := by
          rw [hpost.2.2.1 t]
          exact dictGet_dictSet_self _ _ _
        refine ⟨⟨?_, ?_, ?_, ?_, ?_, ?_⟩, ?_⟩
        · show (dictSet st2.color t Color.black).map Prod.fst =
            st.color.map Prod.fst
          rw [keys_dictSet_of_mem _ _ _ ht2K, hpost.1, hkeys1]
        · show st2.path.dropLast = st.path
          rw [hpost.2.1]
          simp only [hst1]
          exact List.dropLast_concat ..
        · intro k
          by_cases hkt : k = t
          · subst hkt
            rw [show dictGet (dictSet st2.color k Color.black) k =
              some Color.black from dictGet_dictSet_self _ _ _, hw]
            simp
          · rw [show dictGet (dictSet st2.color t Color.black) k =
              dictGet st2.color k from dictGet_dictSet_ne _ _ _ hkt]
            rw [hpost.2.2.1 k]
            rw [show dictGet st1.color k = dictGet st.color k from
              dictGet_dictSet_ne _ _ _ hkt]
        · intro k hk
          have hkt : k ≠ t := by
            intro he
            rw [he, hw] at hk
            simp at hk
          rw [show dictGet (dictSet st2.color t Color.black) k =
            dictGet st2.color k from dictGet_dictSet_ne _ _ _ hkt]
          refine hpost.2.2.2.1 k ?_
          rw [show dictGet st1.color k = dictGet st.color k from
            dictGet_dictSet_ne _ _ _ hkt]
          exact hk
        · calc dfsPotential g (dictSet st2.color t Color.black) ≤
              dfsPotential g st2.color :=
                dfsPotential_dictSet_le _ _ _ _ (by rfl)
            _ ≤ dfsPotential g st1.color := hpost.2.2.2.2.1
            _ ≤ dfsPotential g st.color := by
                have := dfsPotential_gray_add g st.color t hw
                simp only [hst1] at *
                omega
        · obtain ⟨L2, hL2⟩ := hpost.2.2.2.2.2
          have htL2 : t ∉ L2 := by
            intro hc
            have := (hL2.2.1 t).mpr hc
            rw [htgray2] at this
            simp at this
          refine ⟨L2 ++ [t], ?_, ?_, ?_⟩
          · simp only [List.nodup_append, List.nodup_cons, List.nodup_nil]
            exact ⟨hL2.1, by simp, by
              intro a ha
              simp only [List.mem_singleton]
              exact fun he => htL2 (he ▸ ha)⟩
          · intro k
            by_cases hkt : k = t
            · subst hkt
              rw [show dictGet (dictSet st2.color k Color.black) k =
                some Color.black from dictGet_dictSet_self _ _ _]
              simp
            · rw [show dictGet (dictSet st2.color t Color.black) k =
                dictGet st2.color k from dictGet_dictSet_ne _ _ _ hkt]
              rw [hL2.2.1 k]
              simp [List.mem_append, hkt]
          · intro a ha dd hdd hK
            rcases List.mem_append.mp ha with h | h
            · rw [List.indexOf_append_of_mem h,
                List.take_append_of_le_length
                  (le_of_lt (List.indexOf_lt_length.mpr h))]
              exact hL2.2.2 a h dd hdd hK
            · rw [List.mem_singleton.mp h] at hdd ⊢
              rw [List.indexOf_append_of_not_mem htL2,
                List.indexOf_cons_self, Nat.add_zero, List.take_left]
              have := hblackdeps dd hdd hK
              exact (hL2.2.1 dd).mp this
        · show dictGet (dictSet st2.color t Color.black) t =
            some Color.black
          exact dictGet_dictSet_self _ _ _
theorem topologicalSort_cycleError_iff {g : DependencyGraph}
    (hwf : WFGraph g) :
    (topologicalSort g = TopoResult.cycleError ↔ HasCycleG g) ∧
    (¬ HasCycleG g → ∃ r, topologicalSort g = TopoResult.ok r) := by
  obtain ⟨result2, inDeg2, hinv, heq⟩ := topologicalSort_run hwf
  by_cases hlen : result2.length ≠ g.tasks.length
  · rw [if_pos hlen] at heq
    constructor
    · rw [heq]
      simp only [true_iff]
      by_contra hac
      exact hlen (kahnFinal_length_eq_of_covers hwf hinv
        (kahnFinal_covers_of_acyclic hwf hinv hac))
    · intro hac
      exfalso
      exact hlen (kahnFinal_length_eq_of_covers hwf hinv
        (kahnFinal_covers_of_acyclic hwf hinv hac))
  · rw [if_neg hlen] at heq
    push_neg at hlen
    constructor
    · rw [heq]
      constructor
      · intro h; cases h
      · intro hcyc
        exact absurd hcyc (kahnFinal_no_cycle_of_covers hwf hinv
          (kahnFinal_covers_of_length_eq hwf hinv hlen))
    · intro _
      exact ⟨result2, heq⟩

/-- The `for task_id in self._tasks:` loop of `detect_cycles`: starting
from a gray-free invariant state it never exhausts its fuel, reports a
cycle only when the stored relation has one, and on the no-cycle outcome
every supplied task key has been blackened. -/
theorem detectLoop_spec {g : DependencyGraph} (hwf : WFGraph g) :
    ∀ (keys : List String) (st : DfsState),
    DfsStInv g st → st.path = [] →
    (∀ k ∈ keys, k ∈ g.tasks.map Prod.fst) →
    (match detectLoop g keys st with
     | DetectResult.cycle _ => HasCycleG g
     | DetectResult.fuelOut => False
     | DetectResult.noCycle => ∃ st2, DfsPost g st st2 ∧
        ∀ k ∈ keys, dictGet st2.color k = some Color.black) := by
  intro keys
  induction keys with
  | nil =>
    intro st hinv hpath hkeys
    exact ⟨st, dfsPost_refl hinv.2.2.2.2, by simp⟩
  | cons k rest ih =>
    intro st hinv hpath hkeys
    have hkK : k ∈ g.tasks.map Prod.fst := hkeys k (by simp)
    have hkcol : k ∈ st.color.map Prod.fst := hinv.1 ▸ hkK
    have hrestK : ∀ kk ∈ rest, kk ∈ g.tasks.map Prod.fst := by
      intro kk hkk
      exact hkeys kk (by simp [hkk])
    have hrun : detectLoop g (k :: rest) st =
        (match dictGet st.color k with
         | some Color.white =>
           match dfsRun g (dfsFuel g) (DfsCall.visit k) st with
           | (DfsRes.found cyc, _) => DetectResult.cycle cyc
           | (DfsRes.clean, st2) => detectLoop g rest st2
           | (DfsRes.fuelOut, _) => DetectResult.fuelOut
         | _ => detectLoop g rest st) := rfl
    rw [hrun]
    cases hcol : dictGet st.color k with
    | none =>
      exact absurd (dictGet_isSome.mpr hkcol) (by rw [hcol]; simp)
    | some c0 =>
      cases c0 with
      | gray =>
        exfalso
        have := (hinv.2.1 k).mp hcol
        rw [hpath] at this
        simp at this
      | black =>
        show (match detectLoop g rest st with
          | DetectResult.cycle _ => HasCycleG g
          | DetectResult.fuelOut => False
          | DetectResult.noCycle => ∃ st2, DfsPost g st st2 ∧
             ∀ kk ∈ k :: rest, dictGet st2.color kk = some Color.black)
        have hres := ih st hinv hpath hrestK
        match hr : detectLoop g rest st with
        | DetectResult.cycle c => rw [hr] at hres; exact hres
        | DetectResult.fuelOut => rw [hr] at hres; exact hres
        | DetectResult.noCycle =>
          rw [hr] at hres
          obtain ⟨st2, hpost, hblacks⟩ := hres
          refine ⟨st2, hpost, ?_⟩
          intro kk hkk
          rcases List.mem_cons.mp hkk with h | h
          · subst h
            exact hpost.2.2.2.1 kk hcol
          · exact hblacks kk h
      | white =>
        have hvpre : dictGet st.color k = some Color.white ∧
            (∀ t₀ ∈ st.path.getLast?, k ∈ getDependencies g t₀) ∧
            dfsPotential g st.color ≤ dfsFuel g := by
          refine ⟨hcol, ?_, ?_⟩
          · rw [hpath]
            intro t₀ ht₀
            simp at ht₀
          · have := dfsPotential_le_total hinv.1
            unfold dfsFuel
            omega
        have hres := dfsRun_spec hwf (dfsFuel g) (DfsCall.visit k) st
          hinv hvpre
        match hr : dfsRun g (dfsFuel g) (DfsCall.visit k) st with
        | (DfsRes.found c, st2) => rw [hr] at hres; exact hres
        | (DfsRes.fuelOut, st2) => rw [hr] at hres; exact hres
        | (DfsRes.clean, st2) =>
          rw [hr] at hres
          obtain ⟨hpost, hkblack⟩ := hres
          show (match detectLoop g rest st2 with
            | DetectResult.cycle _ => HasCycleG g
            | DetectResult.fuelOut => False
            | DetectResult.noCycle => ∃ st3, DfsPost g st st3 ∧
               ∀ kk ∈ k :: rest, dictGet st3.color kk = some Color.black)
          have hinv2 := dfsStInv_ofPost hinv hpost
          have hres2 := ih st2 hinv2 (hpost.2.1.trans hpath) hrestK
          match hr2 : detectLoop g rest st2 with
          | DetectResult.cycle c => rw [hr2] at hres2; exact hres2
          | DetectResult.fuelOut => rw [hr2] at hres2; exact hres2
          | DetectResult.noCycle =>
            rw [hr2] at hres2
            obtain ⟨st3, hpost2, hblacks⟩ := hres2
            refine ⟨st3, dfsPost_trans hpost hpost2, ?_⟩
            intro kk hkk
            rcases List.mem_cons.mp hkk with h | h
            · subst h
              exact hpost2.2.2.2.1 kk hkblack
            · exact hblacks kk h

/-- On a well-formed graph `detect_cycles` returns `None` exactly when
the stored dependency relation is acyclic, and it never exhausts its
fuel. -/
theorem detectCycles_spec {g : DependencyGraph} (hwf : WFGraph g) :
    (detectCycles g = DetectResult.noCycle ↔ ¬ HasCycleG g) ∧
    detectCycles g ≠ DetectResult.fuelOut := by
  have hnever : ∀ k c,
      dictGet (g.tasks.map (fun p => (p.1, Color.white))) k = some c →
      c = Color.white := by
    intro k c h
    have hinit : dictGet (g.tasks.map (fun p => (p.1, Color.white))) k =
        (dictGet g.tasks k).map (fun _ => Color.white) :=
      dictGet_map_value (fun _ => Color.white) g.tasks k
    rw [hinit] at h
    cases hg : dictGet g.tasks k with
    | none => rw [hg] at h; simp at h
    | some v =>
      rw [hg] at h
      simp only [Option.map_some'] at h
      exact (Option.some_inj.mp h).symm
  have hinv : DfsStInv g ⟨g.tasks.map (fun p => (p.1, Color.white)), []⟩ := by
    refine ⟨?_, ?_, ?_, ?_, ?_⟩
    · simp
    · intro k
      constructor
      · intro h
        exact absurd (hnever k Color.gray h) (by decide)
      · intro h
        simp at h
    · exact List.nodup_nil
    · trivial
    · refine ⟨[], List.nodup_nil, ?_, ?_⟩
      · intro k
        constructor
        · intro h
          exact absurd (hnever k Color.black h) (by decide)
        · intro h
          simp at h
      · intro a ha
        exact absurd ha (List.not_mem_nil a)
  have hres := detectLoop_spec hwf (g.tasks.map Prod.fst)
    ⟨g.tasks.map (fun p => (p.1, Color.white)), []⟩ hinv rfl
    (fun k hk => hk)
  cases hr : detectCycles g with
  | cycle c =>
    rw [show detectCycles g = detectLoop g (g.tasks.map Prod.fst)
        ⟨g.tasks.map (fun p => (p.1, Color.white)), []⟩ from rfl] at hr
    rw [hr] at hres
    constructor
    · constructor
      · intro h
        simp at h
      · intro hn
        exact absurd hres hn
    · intro h
      simp at h
  | fuelOut =>
    rw [show detectCycles g = detectLoop g (g.tasks.map Prod.fst)
        ⟨g.tasks.map (fun p => (p.1, Color.white)), []⟩ from rfl] at hr
    rw [hr] at hres
    exact hres.elim
  | noCycle =>
    rw [show detectCycles g = detectLoop g (g.tasks.map Prod.fst)
        ⟨g.tasks.map (fun p => (p.1, Color.white)), []⟩ from rfl] at hr
    rw [hr] at hres
    obtain ⟨st2, hpost, hblacks⟩ := hres
    obtain ⟨L, hL⟩ := hpost.2.2.2.2.2
    have hnocyc : ¬ HasCycleG g :=
      no_cycle_of_blackOrder hwf hL
        (fun k hk => (hL.2.1 k).mp (hblacks k hk))
    exact ⟨⟨fun _ => hnocyc, fun _ => rfl⟩, by simp⟩

/-- C5: on well-formed graphs (every stored dependency names a task),
`topological_sort` raises the cycle-detected `ValueError` exactly when
`detect_cycles` returns a cycle path. -/
theorem c5_topo_iff_detect (g : DependencyGraph) (hwf : WFGraph g) :
    (topologicalSort g = TopoResult.cycleError ↔
      ∃ c, detectCycles g = DetectResult.cycle c) := by
  obtain ⟨htopo, -⟩ := topologicalSort_cycleError_iff hwf
  obtain ⟨hdet, hfuel⟩ := detectCycles_spec hwf
  rw [htopo]
  constructor
  · intro hcyc
    cases hr : detectCycles g with
    | cycle c => exact ⟨c, rfl⟩
    | noCycle => exact absurd hcyc (hdet.mp hr)
    | fuelOut => exact absurd hr hfuel
  · rintro ⟨c, hc⟩
    by_contra hn
    have h2 := hdet.mpr hn
    rw [hc] at h2
    simp at h2

/-- A well-formed two-cycle: tasks `a` and `b` depending on each other. -/
def c5WitnessGraph : DependencyGraph :=
  addTask (addTask DependencyGraph.empty
    { id := "a", dependencies := ["b"] })
    { id := "b", dependencies := ["a"] }

/-- C5, witness: on the mutually dependent pair the equivalence is
applied — `topological_sort` errors, hence `detect_cycles` reports some
cycle. -/
theorem c5_topo_iff_detect_witness :
    ∃ c, detectCycles c5WitnessGraph = DetectResult.cycle c :=
  (c5_topo_iff_detect c5WitnessGraph
    (by unfold WFGraph; decide)).mp (by decide)

/-! ## `TaskExecutor.execute` and the execution loops (engine.py) -/

/-- `ExecutionPlan.get_task` (engine.py 77-82): first task with the id. -/
def findTask (ts : List OrchestrationTask) (tid : String) :
    Option OrchestrationTask :=
  ts.find? (fun t => t.id == tid)

/-- Write an updated task back into the plan's list: Python mutates the
shared task object in place, which every holder of the list observes. -/
def setTask (ts : List OrchestrationTask) (t' : OrchestrationTask) :
    List OrchestrationTask :=
  ts.map (fun u => if u.id == t'.id then t' else u)

/-- `TaskExecutor.execute` (engine.py 111-154).  The agent interaction is
abstracted into `outcome`: `outcome id n` is the result of the `try` body
on the task's attempt number `n` (`none` = the prompt round-trip returns,
`some e` = it raises an exception rendered as `e`).  On success the task
ends `completed` and `execute` returns `True`; on an exception
`retry_count` is incremented and the task ends `retrying` when the new
count is still below `max_retries`, else `failed`, returning `False`.
(The transient `running` state and the timestamps are not modelled.) -/
def executorExecute (outcome : String → Nat → Option String)
    (t : OrchestrationTask) : OrchestrationTask × Bool :=
  match outcome t.id t.retryCount with
  | none => ({ t with state := TaskState.completed }, true)
  | some e =>
    if t.retryCount + 1 < t.maxRetries then
      ({ t with
          error := some e
          retryCount := t.retryCount + 1
          state := TaskState.retrying }, false)
    else
      ({ t with
          error := some e
          retryCount := t.retryCount + 1
          state := TaskState.failed }, false)

/-- `OrchestratorEngine._update_dependent_tasks` (engine.py 412-421).
The loop only ever writes the `ready` state, which none of its own
completeness checks read, so mapping over the pre-call list with lookups
into the pre-call list is faithful. -/
def updateDependentTasks (ts : List OrchestrationTask)
    (completedTask : OrchestrationTask) : List OrchestrationTask :=
  ts.map (fun t =>
    if completedTask.id ∈ t.dependencies then
      if (t.dependencies.all (fun d =>
            match findTask ts d with
            | some dt => dt.state == TaskState.completed
            | none => false)) &&
          (t.state == TaskState.waitingForDependencies)
      then { t with state := TaskState.ready }
      else t
    else t)

/-- The `for dep_id in task.dependencies:` scan inside
`_wait_for_dependencies` (engine.py 389-399): `some true` = every
dependency present and completed, `some false` = some dependency id is not
in the plan (immediate `return False`), `none` = the first offender is a
present but uncompleted dependency (`all_completed = False; break`).  Note
the `break` on line 395 fires before the `FAILED` check on line 396 can
ever run, so the `CANCELLED` / "Dependency failed: ..." branch at 396-399
is dead code. -/
def waitScan (ts : List OrchestrationTask) : List String → Option Bool
  | [] => some true
  | d :: rest =>
    match findTask ts d with
    | none => some false
    | some dt =>
      if dt.state == TaskState.completed then waitScan ts rest
      else none

/-- `OrchestratorEngine._wait_for_dependencies` (engine.py 375-410) as the
sequential runner reaches it: no other coroutine can advance task states
while it polls, so a present-but-uncompleted dependency never completes
and the 300-second timeout path (state `failed`, error "Timeout waiting
for dependencies") is what the poll loop converges to; the clock is
fast-forwarded. -/
def waitForDependencies (ts : List OrchestrationTask)
    (t : OrchestrationTask) : OrchestrationTask × Bool :=
  if t.dependencies.isEmpty then (t, true)
  else
    match waitScan ts t.dependencies with
    | some true => (t, true)
    | some false => (t, false)
    | none =>
      ({ t with
          state := TaskState.failed
          error := some "Timeout waiting for dependencies" }, false)

/-- `OrchestratorEngine._execute_sequential` (engine.py 264-288),
iterating the plan's task ids in their list order; `agentAvail id`
abstracts `_get_agent_for_task` returning an agent (`true`) or `None`. -/
def seqRunAux (agentAvail : String → Bool)
    (outcome : String → Nat → Option String) :
    List String → List OrchestrationTask →
    List OrchestrationTask × Bool
  | [], ts => (ts, true)
  | tid :: rest, ts =>
    match findTask ts tid with
    | none => seqRunAux agentAvail outcome rest ts
    | some t =>
      let w := waitForDependencies ts t
      let ts1 := setTask ts w.1
      if !w.2 then (ts1, false)
      else if !(agentAvail t.id) then
        (setTask ts1 { t with
            state := TaskState.failed
            error := some ("No agent available for role: " ++ t.role) },
         false)
      else
        let r := executorExecute outcome t
        let ts2 := setTask ts1 r.1
        if !r.2 && (r.1.state == TaskState.failed) then (ts2, false)
        else seqRunAux agentAvail outcome rest (updateDependentTasks ts2 r.1)

def seqRun (agentAvail : String → Bool)
    (outcome : String → Nat → Option String)
    (ts : List OrchestrationTask) : List OrchestrationTask × Bool :=
  seqRunAux agentAvail outcome (ts.map (fun t => t.id)) ts

/-- One `execute_task` closure of `_execute_parallel` (engine.py 309-322)
applied to the accumulated plan state `(tasks, completed_tasks, all
results so far)`: a missing agent marks the task `failed` (no error text)
and contributes a `False` result; otherwise the executor runs, a success
is added to `completed_tasks` and dependents are promoted, and the
contributed result is `success or task.state != FAILED`. -/
def parExecTask (agentAvail : String → Bool)
    (outcome : String → Nat → Option String)
    (acc : List OrchestrationTask × List String × Bool) (tid : String) :
    List OrchestrationTask × List String × Bool :=
  match findTask acc.1 tid with
  | none => acc
  | some t =>
    if !(agentAvail t.id) then
      (setTask acc.1 { t with state := TaskState.failed }, acc.2.1, false)
    else
      let r := executorExecute outcome t
      let ts2 := setTask acc.1 r.1
      if r.2 then
        (updateDependentTasks ts2 r.1, setAdd acc.2.1 r.1.id, acc.2.2)
      else
        (ts2, acc.2.1, acc.2.2 && !(r.1.state == TaskState.failed))

/-- One iteration of the `while` loop of `_execute_parallel` (engine.py
299-329): collect the ready tasks; with none ready the body just sleeps
(state unchanged, round not failed); otherwise run `execute_task` for
each (the gathered closures' effects applied in list order) and report
`not all(results)` as the round's failure flag. -/
def parRound (agentAvail : String → Bool)
    (outcome : String → Nat → Option String)
    (ts : List OrchestrationTask) (comp : List String) :
    List OrchestrationTask × List String × Bool :=
  let ready := ts.filter (fun t =>
    t.state == TaskState.ready && !(comp.contains t.id))
  if ready.isEmpty then (ts, comp, false)
  else
    let r := (ready.map (fun t => t.id)).foldl
      (parExecTask agentAvail outcome) (ts, comp, true)
    (r.1, r.2.1, !r.2.2)

/-- Outcome of running `_execute_parallel` for a bounded number of loop
iterations: `done` is the function's actual return, `spinning` is the
state of a run still inside the `while` loop after the bound. -/
inductive ParRun where
  | done (ts : List OrchestrationTask) (ok : Bool)
  | spinning (ts : List OrchestrationTask) (comp : List String)
deriving Repr, DecidableEq

/-- `OrchestratorEngine._execute_parallel` (engine.py 290-331):
`while len(completed_tasks) < len(plan.tasks) and not failed:`, with
`total = len(plan.tasks)`; on exit it returns `not failed`. -/
def parLoop (agentAvail : String → Bool)
    (outcome : String → Nat → Option String) (total : Nat) :
    Nat → List OrchestrationTask → List String → ParRun
  | 0, ts, comp => ParRun.spinning ts comp
  | fuel + 1, ts, comp =>
    if comp.length < total then
      let r := parRound agentAvail outcome ts comp
      if r.2.2 then ParRun.done r.1 false
      else parLoop agentAvail outcome total fuel r.1 r.2.1
    else ParRun.done ts true

/-- Once a round is a fixed point with no failure (nothing `ready`), the
parallel `while` loop only sleeps: it spins forever without re-executing
anything. -/
theorem parLoop_stable (agentAvail : String → Bool)
    (outcome : String → Nat → Option String) (total : Nat)
    (ts : List OrchestrationTask) (comp : List String)
    (hlt : comp.length < total)
    (hfix : parRound agentAvail outcome ts comp = (ts, comp, false)) :
    ∀ fuel, parLoop agentAvail outcome total fuel ts comp =
      ParRun.spinning ts comp := by
  intro fuel
  induction fuel with
  | zero => rfl
  | succ f ih =>
    have hstep : parLoop agentAvail outcome total (f + 1) ts comp =
        (if comp.length < total then
          (let r := parRound agentAvail outcome ts comp
           if r.2.2 then ParRun.done r.1 false
           else parLoop agentAvail outcome total f r.1 r.2.1)
         else ParRun.done ts true) := rfl
    rw [hstep, if_pos hlt, hfix]
    exact ih

/-! ## Claim C2 -/

/-- The claim's chain: `a` (no dependencies, with `max_retries := 1` so
that its first exception already exhausts its retries and reaches the
`failed` state), `b` depending on `a`, `c` depending on `b`. -/
def c2Tasks : List OrchestrationTask :=
  [{ id := "a", dependencies := [], maxRetries := 1 },
   { id := "b", dependencies := ["a"] },
   { id := "c", dependencies := ["b"] }]

def c2Init : List OrchestrationTask :=
  (createPlan "s" ExecutionStrategy.parallel c2Tasks).tasks

/-- Executing `a` always raises. -/
def c2Outcome : String → Nat → Option String := fun _ _ => some "boom"

def c2Final : List OrchestrationTask :=
  (parRound (fun _ => true) c2Outcome c2Init []).1

/-- C2: under the parallel strategy, when `a` raises and exhausts its
retries (reaching `failed`), the loop exits with `False` on that very
round and never walks the dependents: `b` and `c` are left in
`waiting_for_dependencies` with no error set — not `cancelled`, and no
"dependency failed: a" reason is recorded anywhere.  (The only code
carrying that message, `_wait_for_dependencies` 396-399, is not called by
`_execute_parallel`, and is dead code besides.) -/
theorem c2_parallel_dependents_not_cancelled :
    (∀ fuel : Nat, parLoop (fun _ => true) c2Outcome 3 (fuel + 1) c2Init []
       = ParRun.done c2Final false) ∧
    (findTask c2Final "a").map (fun t => t.state) = some TaskState.failed ∧
    (∀ tid ∈ ["b", "c"], (findTask c2Final tid).map
       (fun t => (t.state, t.error)) =
       some (TaskState.waitingForDependencies, none)) := by
  refine ⟨fun fuel => rfl, by decide, by decide⟩

/-- C2, witness: the single-round run and the untouched dependent `b`
evaluated on the chain. -/
theorem c2_parallel_dependents_not_cancelled_witness :
    parLoop (fun _ => true) c2Outcome 3 1 c2Init [] =
      ParRun.done c2Final false ∧
    (findTask c2Final "b").map (fun t => (t.state, t.error)) =
      some (TaskState.waitingForDependencies, none) :=
  ⟨c2_parallel_dependents_not_cancelled.1 0,
   c2_parallel_dependents_not_cancelled.2.2 "b" (by decide)⟩

/-! ## Claim C6 -/

/-- A single dependency-free task whose execution raises exactly once:
the outcome fails on attempt 0 and would succeed on any retry. -/
def c6Tasks : List OrchestrationTask := [{ id := "t", dependencies := [] }]

def c6Init : List OrchestrationTask :=
  (createPlan "s" ExecutionStrategy.sequential c6Tasks).tasks

def c6Outcome : String → Nat → Option String :=
  fun _ n => if n = 0 then some "boom" else none

def c6SeqFinal : List OrchestrationTask :=
  (seqRun (fun _ => true) c6Outcome c6Init).1

def c6ParStable : List OrchestrationTask :=
  (parRound (fun _ => true) c6Outcome c6Init []).1

/-- C6: a task whose execution raises once (and would succeed if retried)
is put in `retrying` with `retry_count = 1` but is never requeued: the
sequential runner just moves on and `execute_plan` returns `True` with the
task still `retrying` and executed only once, and the parallel runner
never selects it again (only `ready` tasks are picked), spinning forever
with the task unchanged. -/
theorem c6_retrying_task_never_requeued :
    (seqRun (fun _ => true) c6Outcome c6Init = (c6SeqFinal, true) ∧
     (findTask c6SeqFinal "t").map (fun t => (t.state, t.retryCount)) =
       some (TaskState.retrying, 1)) ∧
    (∀ fuel, parLoop (fun _ => true) c6Outcome 1 (fuel + 1) c6Init [] =
       ParRun.spinning c6ParStable [] ∧
     (findTask c6ParStable "t").map (fun t => (t.state, t.retryCount)) =
       some (TaskState.retrying, 1)) := by
  refine ⟨⟨rfl, by decide⟩, fun fuel => ⟨?_, by decide⟩⟩
  have h1 : parLoop (fun _ => true) c6Outcome 1 (fuel + 1) c6Init [] =
      parLoop (fun _ => true) c6Outcome 1 fuel c6ParStable [] := rfl
  rw [h1]
  exact parLoop_stable _ _ _ _ _ (by decide) (by decide) fuel

/-! ## `HumanInterventionSystem.resolve` (intervention.py) -/

/-- `InterventionStatus` (intervention.py 26-35): its eight members. -/
inductive InterventionStatus where
  | pending
  | waitingForHuman
  | approved
  | rejected
  | modified
  | overridden
  | expired
  | cancelled
deriving Repr, DecidableEq

/-- Python attribute lookup `InterventionStatus.<name>`: the members the
enum class defines at intervention.py 26-35 (`PENDING`,
`WAITING_FOR_HUMAN`, `APPROVED`, `REJECTED`, `MODIFIED`, `OVERRIDDEN`,
`EXPIRED`, `CANCELLED`); any other name raises `AttributeError`. -/
def interventionStatusMember (name : String) : Option InterventionStatus :=
  if name = "PENDING" then some InterventionStatus.pending
  else if name = "WAITING_FOR_HUMAN" then
    some InterventionStatus.waitingForHuman
  else if name = "APPROVED" then some InterventionStatus.approved
  else if name = "REJECTED" then some InterventionStatus.rejected
  else if name = "MODIFIED" then some InterventionStatus.modified
  else if name = "OVERRIDDEN" then some InterventionStatus.overridden
  else if name = "EXPIRED" then some InterventionStatus.expired
  else if name = "CANCELLED" then some InterventionStatus.cancelled
  else none

/-- `InterventionPoint` (intervention.py 38-71), restricted to the fields
`resolve` reads or writes; `resolution` is modelled as the
string-valued entries of the dict. -/
structure InterventionPoint where
  id : String
  status : InterventionStatus := InterventionStatus.pending
  resolvedBy : Option String := none
  resolution : Option (List (String × String)) := none
deriving Repr, DecidableEq

/-- `HumanInterventionSystem.resolve` (intervention.py 414-460) acting on
the `_interventions` map.  An unknown id returns `None` (430-432); for a
registered point, line 434 evaluates the attribute
`InterventionStatus.RESOLVED` before anything else in the membership
test, which is where the `AttributeError` escape is modelled; the rest
mirrors 438-460 (future / callback notification not modelled). -/
def interventionResolve (interventions : List (String × InterventionPoint))
    (interventionId : String) (resolution : List (String × String))
    (resolvedBy : String) :
    Except String
      (List (String × InterventionPoint) × Option InterventionPoint) :=
  match dictGet interventions interventionId with
  | none => Except.ok (interventions, none)
  | some point =>
    match interventionStatusMember "RESOLVED" with
    | none => Except.error "AttributeError: RESOLVED"
    | some resolvedStatus =>
      if point.status = resolvedStatus ∨
          point.status = InterventionStatus.cancelled then
        Except.ok (interventions, some point)
      else
        let action := (dictGet resolution "action").getD "approve"
        let newStatus :=
          if action = "approve" then InterventionStatus.approved
          else if action = "reject" then InterventionStatus.rejected
          else if action = "modify" then InterventionStatus.modified
          else InterventionStatus.approved
        let point2 := { point with
          status := newStatus
          resolvedBy := some resolvedBy
          resolution := some resolution }
        Except.ok (dictSet interventions interventionId point2, some point2)

/-- C3: for every `_interventions` map and every id registered in it,
`resolve` raises `AttributeError` — line 434 reads the nonexistent enum
member `InterventionStatus.RESOLVED` — so a second resolve after a first
one is never the claimed no-op; it (like the first) crashes instead of
returning the point. -/
theorem c3_resolve_attribute_error
    (interventions : List (String × InterventionPoint))
    (interventionId : String) (resolution : List (String × String))
    (resolvedBy : String)
    (h : (dictGet interventions interventionId).isSome) :
    interventionResolve interventions interventionId resolution resolvedBy =
      Except.error "AttributeError: RESOLVED" := by
  obtain ⟨p, hp⟩ := Option.isSome_iff_exists.mp h
  unfold interventionResolve
  rw [hp]
  exact rfl

/-- C3, witness: resolving a freshly registered pending intervention
(first call, let alone a second) already raises the `AttributeError`. -/
theorem c3_resolve_attribute_error_witness :
    interventionResolve [("i1", { id := "i1" })] "i1"
      [("action", "approve")] "human" =
      Except.error "AttributeError: RESOLVED" :=
  c3_resolve_attribute_error [("i1", { id := "i1" })] "i1"
    [("action", "approve")] "human" (by decide)

/-! ## `ACPConnection` message handling (protocols/acp.py) -/

/-- An inbound JSON-RPC message, restricted to the keys the adapter
reads: the optional `method` and `id` entries, the string-valued entries
of `params`, and the `params["arguments"]` object (also string-valued). -/
structure JsonRpcMsg where
  method : Option String := none
  id : Option String := none
  params : List (String × String) := []
  arguments : List (String × String) := []
deriving Repr, DecidableEq

/-- A message written back to the agent by `_send_response` (acp.py
436-443) or `_send_error` (445-460): `{jsonrpc, id, result}` or
`{jsonrpc, id, error: {code, message}}`. -/
inductive Outbound where
  | response (reqId : Option String) (result : List (String × String))
  | errorResp (reqId : Option String) (code : Int) (message : String)
deriving Repr, DecidableEq

/-- `ACPConnection._handle_request` (acp.py 361-383): `tools/call`
dispatches to a registered handler (reply on success, `-32600` error on a
handler exception, `-32601` "Unknown tool" when no handler is registered)
and `ping` replies with an empty result; **any other method falls through
both branches and produces no reply at all**.  A handler is a function of
the tool name and the `arguments` object returning a result or raising. -/
def handleRequest
    (toolHandlers : List (String × (String → List (String × String) →
      Except String (List (String × String)))))
    (msg : JsonRpcMsg) : List Outbound :=
  let method := msg.method.getD ""
  let reqId := msg.id
  if method = "tools/call" then
    let toolName := (dictGet msg.params "name").getD ""
    match dictGet toolHandlers toolName with
    | some handler =>
      match handler toolName msg.arguments with
      | Except.ok result => [Outbound.response reqId result]
      | Except.error e => [Outbound.errorResp reqId (-32600) e]
    | none =>
      [Outbound.errorResp reqId (-32601) ("Unknown tool: " ++ toolName)]
  else if method = "ping" then
    [Outbound.response reqId []]
  else
    []

/-- The state of a future created by `_send_request` (acp.py 418): still
pending, resolved with the response message, or rejected with an
exception. -/
inductive FutureState where
  | pending
  | resolvedMsg (msg : JsonRpcMsg)
  | rejected (err : String)
deriving Repr, DecidableEq

/-- The reader-visible connection state: every future ever created by
`_send_request`, keyed by request id (the future object outlives the
map entry); the current key set of `_pending_requests`; the notification
`_message_queue`; the outbound replies written so far. -/
structure ConnState where
  futures : List (String × FutureState)
  pendingKeys : List String
  queue : List JsonRpcMsg
  outbound : List Outbound
deriving Repr, DecidableEq

/-- A line read from the agent's stdout: JSON, or raw text
(`json.JSONDecodeError` path). -/
inductive InLine where
  | json (msg : JsonRpcMsg)
  | raw (text : String)
deriving Repr, DecidableEq

/-- One iteration of the `while True:` body of
`ACPConnection._read_messages` (acp.py 324-352): a message with both
`method` and `id` is a request (handled, replies appended); with only
`id` it is a response (`_pending_requests.pop(id, None)`; a popped,
still-pending future is resolved with the message); with only `method` it
is queued as a notification; raw text is queued as an info
notification. -/
def readOne
    (toolHandlers : List (String × (String → List (String × String) →
      Except String (List (String × String)))))
    (st : ConnState) (l : InLine) : ConnState :=
  match l with
  | InLine.raw text =>
    { st with queue := st.queue ++
        [{ method := some "notifications/message"
           params := [("level", "info"), ("message", text)] }] }
  | InLine.json msg =>
    match msg.method, msg.id with
    | some _, some _ =>
      { st with outbound := st.outbound ++ handleRequest toolHandlers msg }
    | none, some rid =>
      if st.pendingKeys.contains rid then
        let keys2 := st.pendingKeys.erase rid
        match dictGet st.futures rid with
        | some FutureState.pending =>
          { st with
              pendingKeys := keys2
              futures := dictSet st.futures rid (FutureState.resolvedMsg msg) }
        | _ => { st with pendingKeys := keys2 }
      else st
    | some _, none => { st with queue := st.queue ++ [msg] }
    | none, none => st

/-- `ACPConnection._read_messages` (acp.py 318-359) over the whole stream
content: fold the loop body over the lines; at end-of-stream `readline`
returns empty, the loop `break`s and the coroutine simply returns — no
further state change of any kind. -/
def readMessages
    (toolHandlers : List (String × (String → List (String × String) →
      Except String (List (String × String)))))
    (lines : List InLine) (st : ConnState) : ConnState :=
  lines.foldl (readOne toolHandlers) st

/-- `_send_request`'s continuation after the write (acp.py 430-434): a
resolved future yields its message; otherwise the `wait_for` eventually
times out, the entry is popped from `_pending_requests` and `None` is
returned — no exception of any kind reaches the caller. -/
def sendRequestAwait (st : ConnState) (reqId : String) :
    ConnState × Option JsonRpcMsg :=
  match dictGet st.futures reqId with
  | some (FutureState.resolvedMsg m) => (st, some m)
  | _ => ({ st with pendingKeys := st.pendingKeys.erase reqId }, none)

/-- `l` is a response line addressed to the request id `rid`. -/
def IsResponseTo (l : InLine) (rid : String) : Prop :=
  ∃ msg, l = InLine.json msg ∧ msg.method = none ∧ msg.id = some rid

theorem readOne_pending_preserved
    (toolHandlers : List (String × (String → List (String × String) →
      Except String (List (String × String)))))
    (st : ConnState) (l : InLine) (rid : String)
    (hpend : dictGet st.futures rid = some FutureState.pending)
    (hnr : ¬ IsResponseTo l rid) :
    dictGet (readOne toolHandlers st l).futures rid =
      some FutureState.pending := by
  cases l with
  | raw text => exact hpend
  | json msg =>
    have h0 : readOne toolHandlers st (InLine.json msg) =
        (match msg.method, msg.id with
         | some _, some _ =>
           { st with outbound :=
               st.outbound ++ handleRequest toolHandlers msg }
         | none, some rid2 =>
           (if st.pendingKeys.contains rid2 then
             (let keys2 := st.pendingKeys.erase rid2
              match dictGet st.futures rid2 with
              | some FutureState.pending =>
                { st with
                    pendingKeys := keys2
                    futures := dictSet st.futures rid2
                      (FutureState.resolvedMsg msg) }
              | _ => { st with pendingKeys := keys2 })
            else st)
         | some _, none => { st with queue := st.queue ++ [msg] }
         | none, none => st) := rfl
    rw [h0]
    cases hm : msg.method with
    | some m =>
      cases hi : msg.id with
      | some i => exact hpend
      | none => exact hpend
    | none =>
      cases hi : msg.id with
      | none => exact hpend
      | some rid2 =>
        have hne : rid ≠ rid2 := by
          intro he
          exact hnr ⟨msg, rfl, hm, by rw [hi, he]⟩
        show dictGet (if st.pendingKeys.contains rid2 then
            (let keys2 := st.pendingKeys.erase rid2
             match dictGet st.futures rid2 with
             | some FutureState.pending =>
               { st with
                   pendingKeys := keys2
                   futures := dictSet st.futures rid2
                     (FutureState.resolvedMsg msg) }
             | _ => { st with pendingKeys := keys2 })
           else st).futures rid = some FutureState.pending
        by_cases hc : st.pendingKeys.contains rid2 = true
        · rw [if_pos hc]
          cases hf : dictGet st.futures rid2 with
          | none =>
            exact hpend
          | some fs =>
            cases fs with
            | pending =>
              show dictGet (dictSet st.futures rid2
                (FutureState.resolvedMsg msg)) rid =
                some FutureState.pending
              rw [dictGet_dictSet_ne st.futures rid2
                (FutureState.resolvedMsg msg) hne]
              exact hpend
            | resolvedMsg m2 => exact hpend
            | rejected e => exact hpend
        · rw [if_neg hc]
          exact hpend

/-- `_read_messages` never touches a pending future that no response line
addresses. -/
theorem readMessages_pending_preserved
    (toolHandlers : List (String × (String → List (String × String) →
      Except String (List (String × String))))) (rid : String) :
    ∀ (lines : List InLine) (st : ConnState),
    dictGet st.futures rid = some FutureState.pending →
    (∀ l ∈ lines, ¬ IsResponseTo l rid) →
    dictGet (readMessages toolHandlers lines st).futures rid =
      some FutureState.pending := by
  intro lines
  induction lines with
  | nil =>
    intro st hpend _
    exact hpend
  | cons l ls ih =>
    intro st hpend hnr
    show dictGet (readMessages toolHandlers ls
      (readOne toolHandlers st l)).futures rid = some FutureState.pending
    exact ih (readOne toolHandlers st l)
      (readOne_pending_preserved toolHandlers st l rid hpend
        (hnr l (by simp)))
      (fun l2 hl2 => hnr l2 (by simp [hl2]))

/-- C7 (amended): when the agent's stdout closes while a request is in
flight, `_read_messages` simply exits its loop: the pending future is
left pending — it is not completed with any error (no `PeerClosed`
exists in the code), and the `_send_request` caller is released only by
its own timeout, which pops the `_pending_requests` entry and returns
`None`. -/
theorem c7_stream_close_leaves_future_pending
    (toolHandlers : List (String × (String → List (String × String) →
      Except String (List (String × String)))))
    (lines : List InLine) (st : ConnState) (rid : String)
    (hpend : dictGet st.futures rid = some FutureState.pending)
    (hnores : ∀ l ∈ lines, ¬ IsResponseTo l rid) :
    dictGet (readMessages toolHandlers lines st).futures rid =
      some FutureState.pending ∧
    (∀ e, dictGet (readMessages toolHandlers lines st).futures rid ≠
      some (FutureState.rejected e)) ∧
    (sendRequestAwait (readMessages toolHandlers lines st) rid).2 =
      none := by
  have hp := readMessages_pending_preserved toolHandlers rid lines st
    hpend hnores
  refine ⟨hp, ?_, ?_⟩
  · intro e he
    rw [hp] at he
    simp at he
  · unfold sendRequestAwait
    rw [hp]

/-- A connection with the single request `"1"` in flight whose stream
closed immediately (no lines before EOF). -/
def c7CexState : ConnState :=
  { futures := [("1", FutureState.pending)]
    pendingKeys := ["1"]
    queue := []
    outbound := [] }

/-- C7, counterexample: stream closure with request `"1"` pending leaves
its future pending, not completed with a `PeerClosed` (or any other)
error — the claimed completion never happens. -/
theorem c7_stream_close_leaves_future_pending_cex :
    dictGet (readMessages [] [] c7CexState).futures "1" =
      some FutureState.pending ∧
    ∀ e, dictGet (readMessages [] [] c7CexState).futures "1" ≠
      some (FutureState.rejected e) := by
  refine ⟨rfl, ?_⟩
  intro e he
  rw [show dictGet (readMessages [] [] c7CexState).futures "1" =
    some FutureState.pending from rfl] at he
  simp at he

/-- C7, witness: the amended theorem applied to the one-pending-request
connection — EOF leaves future `"1"` pending and its `_send_request`
returns `None` after the timeout. -/
theorem c7_stream_close_leaves_future_pending_witness :
    dictGet (readMessages [] [] c7CexState).futures "1" =
      some FutureState.pending ∧
    (sendRequestAwait (readMessages [] [] c7CexState) "1").2 = none := by
  have h := c7_stream_close_leaves_future_pending [] [] c7CexState "1"
    (by decide) (by intro l hl; simp at hl)
  exact ⟨h.1, h.2.2⟩

/-! ## Claim C8 -/

/-- A request (method and id both present) whose method is in none of the
adapter's branches. -/
def c8CexMsg : JsonRpcMsg :=
  { method := some "status/get", id := some "7" }

/-- C8, counterexample: the request `{method: "status/get", id: "7"}` is
peer-initiated (both `method` and `id` present) and unrecognised, yet
`_handle_request` produces no outbound message at all — in particular no
`-32601` error response carrying id `"7"`. -/
theorem c8_unknown_method_reply_cex :
    handleRequest [] c8CexMsg = [] ∧
    ∀ e, Outbound.errorResp (some "7") (-32601) e ∉
      handleRequest [] c8CexMsg := by
  refine ⟨rfl, ?_⟩
  intro e he
  rw [show handleRequest [] c8CexMsg = [] from rfl] at he
  simp at he

/-- C8 (amended): an inbound request whose method is neither `tools/call`
nor `ping` gets no reply of any kind; the `-32601` (method-not-found)
error is in fact sent only by the `tools/call` branch when the named tool
has no registered handler, echoing the request's id; `ping` is answered
with an empty result. -/
theorem c8_unknown_method_no_reply
    (toolHandlers : List (String × (String → List (String × String) →
      Except String (List (String × String)))))
    (msg : JsonRpcMsg)
    (h1 : msg.method.getD "" ≠ "tools/call")
    (h2 : msg.method.getD "" ≠ "ping") :
    handleRequest toolHandlers msg = [] ∧
    (∀ msg2 : JsonRpcMsg, msg2.method.getD "" = "tools/call" →
      dictGet toolHandlers ((dictGet msg2.params "name").getD "") = none →
      handleRequest toolHandlers msg2 =
        [Outbound.errorResp msg2.id (-32601)
          ("Unknown tool: " ++ (dictGet msg2.params "name").getD "")]) ∧
    (∀ msg3 : JsonRpcMsg, msg3.method.getD "" = "ping" →
      handleRequest toolHandlers msg3 =
        [Outbound.response msg3.id []]) := by
  refine ⟨?_, ?_, ?_⟩
  · unfold handleRequest
    rw [if_neg h1, if_neg h2]
  · intro msg2 hm hnone
    unfold handleRequest
    rw [if_pos hm]
    show (match dictGet toolHandlers ((dictGet msg2.params "name").getD "")
        with
      | some handler =>
        match handler ((dictGet msg2.params "name").getD "")
            msg2.arguments with
        | Except.ok result => [Outbound.response msg2.id result]
        | Except.error e => [Outbound.errorResp msg2.id (-32600) e]
      | none => [Outbound.errorResp msg2.id (-32601)
          ("Unknown tool: " ++ (dictGet msg2.params "name").getD "")]) =
      [Outbound.errorResp msg2.id (-32601)
        ("Unknown tool: " ++ (dictGet msg2.params "name").getD "")]
    rw [hnone]
  · intro msg3 hm
    unfold handleRequest
    by_cases hcall : msg3.method.getD "" = "tools/call"
    · rw [hcall] at hm
      exact absurd hm.symm (by decide)
    · rw [if_neg hcall, if_pos hm]

/-- C8, witness: the amended behaviour evaluated — the unknown request
gets no reply, the unknown tool gets the `-32601` error with its id, the
ping gets an empty result. -/
theorem c8_unknown_method_no_reply_witness :
    handleRequest [] c8CexMsg = [] ∧
    handleRequest []
      { method := some "tools/call", id := some "9"
        params := [("name", "mytool")] } =
      [Outbound.errorResp (some "9") (-32601) "Unknown tool: mytool"] ∧
    handleRequest [] { method := some "ping", id := some "3" } =
      [Outbound.response (some "3") []] := by
  have h := c8_unknown_method_no_reply [] c8CexMsg (by decide) (by decide)
  refine ⟨h.1, ?_, h.2.2 { method := some "ping", id := some "3" } rfl⟩
  have h2 := h.2.1
    { method := some "tools/call", id := some "9"
      params := [("name", "mytool")] } rfl rfl
  exact h2

/-! ## `SessionManager.launch_agent` (core/session.py 259-314) -/

/-- The argument record of a `store_agent_output` call (memory/context.py
56-85) as the output callback issues it. -/
structure MemoryRecord where
  agent : String
  content : String
  memoryType : String
deriving Repr, DecidableEq

/-- The output callback `launch_agent` installs (session.py 297-305): for
each emitted line it schedules
`store_agent_output(agent=name, content=msg, memory_type="agent_output")`. -/
def launchAgentCallback (name : String) : String → MemoryRecord :=
  fun msg =>
    { agent := name, content := msg, memoryType := "agent_output" }

/-- The dict `launch_agent` returns: `{name, cli, status, pid}` on
success (session.py 307-312) or `{error}` (314). -/
inductive LaunchResult where
  | ok (name : String) (cli : String) (status : String) (pid : Option Int)
  | error (msg : String)
deriving Repr, DecidableEq

/-- `SessionManager.launch_agent` (session.py 259-314).  Session lookup,
launcher initialisation and the subprocess spawn are abstracted:
`sessionExists` is whether `get(session_id)` finds the session (else
`None` is returned at 277-279), `hasCtx` is whether
`session.context_manager` is set, and `launchOutcome` is the
`launcher.launch` call — `ok pid` giving the wrapper's process pid, or
`error e` for a raised exception.  The second component is the installed
output callback, if any. -/
def launchAgent (sessionExists : Bool) (hasCtx : Bool)
    (launchOutcome : Except String (Option Int)) (cli name : String) :
    Option (LaunchResult × Option (String → MemoryRecord)) :=
  if !sessionExists then none
  else
    match launchOutcome with
    | Except.error e => some (LaunchResult.error e, none)
    | Except.ok pid =>
      some (LaunchResult.ok name cli "running" pid,
        if hasCtx then some (launchAgentCallback name) else none)

/-- C9, counterexample: the record the installed callback writes for an
emitted line carries `memory_type = "agent_output"`, not the
`"conversation"` type the claim promises. -/
theorem c9_launch_agent_cex :
    (launchAgentCallback "agent1" "hello").memoryType = "agent_output" ∧
    (launchAgentCallback "agent1" "hello").memoryType ≠ "conversation" :=
  ⟨rfl, by decide⟩

/-- C9 (amended): with the session present, a successful spawn returns
the descriptor `{name, cli, status: "running", pid}` and (when the
session has a context manager) installs a callback writing each emitted
line as an `"agent_output"`-typed — not `"conversation"`-typed — memory
record; a raised exception returns `{error}`; a missing session returns
`None`. -/
theorem c9_launch_agent (hasCtx : Bool) (cli name line : String)
    (outcome : Except String (Option Int)) :
    (∀ pid, outcome = Except.ok pid →
      launchAgent true hasCtx outcome cli name =
        some (LaunchResult.ok name cli "running" pid,
          if hasCtx then some (launchAgentCallback name) else none)) ∧
    (∀ e, outcome = Except.error e →
      launchAgent true hasCtx outcome cli name =
        some (LaunchResult.error e, none)) ∧
    launchAgent false hasCtx outcome cli name = none ∧
    launchAgentCallback name line =
      { agent := name, content := line, memoryType := "agent_output" } := by
  refine ⟨?_, ?_, rfl, rfl⟩
  · intro pid hout
    unfold launchAgent
    rw [hout]
    exact rfl
  · intro e hout
    unfold launchAgent
    rw [hout]
    exact rfl

/-- C9, witness: a successful launch with pid 42 under a session with a
context manager — the descriptor and the installed `"agent_output"`
callback evaluated concretely. -/
theorem c9_launch_agent_witness :
    launchAgent true true (Except.ok (some 42)) "claude" "agent1" =
      some (LaunchResult.ok "agent1" "claude" "running" (some 42),
        some (launchAgentCallback "agent1")) ∧
    (launchAgentCallback "agent1" "line one").memoryType =
      "agent_output" := by
  have h := c9_launch_agent true "claude" "agent1" "line one"
    (Except.ok (some 42))
  refine ⟨?_, congrArg MemoryRecord.memoryType h.2.2.2⟩
  have h1 := h.1 (some 42) rfl
  simpa using h1

end Memnexus
